import Mathlib

/-!
Verification of the pull-based build scheduler of this repository
(class `Build` in `src/build.py`).

The scheduler keeps three lock-protected tables: `_building` (targets whose
handler is queued or running, mapped to a completion `Future`), `_done`
(successfully completed targets) and `_failed` (targets whose handler raised,
mapped to the stored exception).  `need` demands targets, `run` installs a
thread pool and demands the root target, and `_build_target` runs a handler
and records the terminal state.

The embedding below is twofold:

* a functional model of the sequential code paths: `need1` (the body of one
  iteration of the lock-protected loop inside `need`), `needLoop` (the loop),
  `firstErr` (the wait phase), `need` (the whole method including the entry
  assertion) and `run`;

* a labelled transition system `Step` on the scheduler state, in which every
  lock-protected critical section of the Python code is a single atomic
  transition: the five possible outcomes of one `need` loop iteration, and the
  terminal state update performed by the `finally` block of `_build_target`.
  Interleavings of concurrent callers are arbitrary sequences of such steps.

Handlers are identified by numeric ids; what a handler does is irrelevant to
the scheduler (its effects happen through further `need` calls, which are
themselves steps of the system).  Machine integers do not occur in the
scheduler.  Exceptions are modelled by the inductive type `Err`.
-/

namespace BuildSpec

/-- Exceptions that flow through the scheduler.  `noMatchingRule t` models the
`ValueError` raised by `Build._find_rule` whose message interpolates the
target name `t` (the spec calls it `NoMatchingRule`); `handlerFailure c`
abstracts an arbitrary exception raised by a rule handler, identified by a
code `c` so that distinct exception values are distinguishable and equality
of the stored value is meaningful. -/
inductive Err where
  | noMatchingRule (target : String)
  | handlerFailure (code : Nat)
deriving DecidableEq, Repr

/-- Status of a `concurrent.futures.Future` for a submitted build task:
still queued or executing, resolved successfully, or resolved with the
exception re-raised by `Build._build_target`. -/
inductive FutStatus where
  | running
  | resolvedOk
  | resolvedErr (e : Err)
deriving DecidableEq, Repr

/-- A future submitted by `need` via `self._executor.submit(self._build_target,
target, rule)`: it carries the target, the resolved rule handler id, and its
status. -/
structure Fut where
  target : String
  rule : Nat
  status : FutStatus
deriving DecidableEq, Repr

/-- The state of a `Build` object (plus the futures it has submitted).
`rules` models `self._rules` (an ordered list of pattern/handler pairs,
handlers named by ids), `building` models `self._building` (target to future
id), `done` models `self._done`, `failed` models `self._failed`, and
`executor` models `self._executor` (`none` before `run` installs the pool;
`some w` a pool with `w` max workers).  `futs` is the table of future objects
created so far, keyed by fresh ids drawn from `nextFid`; in Python these
objects live inside `self._building` values and the pool.  `self._lock` is
modelled by the atomicity of the transitions below. -/
structure Build where
  rules : List (String × Nat)
  building : List (String × Nat)
  done : List String
  failed : List (String × Err)
  futs : List (Nat × Fut)
  nextFid : Nat
  executor : Option Nat
deriving DecidableEq, Repr

/-- The state built by `Build.__init__`: empty tables, no executor. -/
def Build.init : Build :=
  { rules := [], building := [], done := [], failed := [], futs := [],
    nextFid := 0, executor := none }

/-- `Build.rule`: the decorator appends `(pattern, fn)` to `self._rules`. -/
def Build.rule (s : Build) (pattern : String) (rid : Nat) : Build :=
  { s with rules := s.rules ++ [(pattern, rid)] }

/-- Lookup in an association list with string keys, mirroring a Python dict
read: the first entry with the given key (table operations below keep keys
unique, as a dict does). -/
def lookupKey {α : Type} (t : String) : List (String × α) → Option α
  | [] => none
  | p :: rest => if p.1 = t then some p.2 else lookupKey t rest

/-- Removal of a key from an association list, mirroring `del d[target]`
guarded by `if target in d` (a no-op when the key is absent). -/
def removeKey {α : Type} (t : String) : List (String × α) → List (String × α)
  | [] => []
  | p :: rest => if p.1 = t then removeKey t rest else p :: removeKey t rest

/-- All suffixes of a list, longest first. -/
def suffixes : List Char → List (List Char)
  | [] => [[]]
  | c :: cs => (c :: cs) :: suffixes cs

/-- Does `f` accept some suffix of the argument? -/
def anySuffix (f : List Char → Bool) : List Char → Bool
  | [] => f []
  | c :: cs => f (c :: cs) || anySuffix f cs

/-- Shell-glob matching of a pattern against a name, as performed by
`fnmatch.fnmatch` on a POSIX host (where case normalisation is the identity),
for patterns built from literal characters, `*` (any run of characters) and
`?` (exactly one character) — the only pattern forms this repository uses.
A `*` consumes an arbitrary prefix of the name, so the rest of the pattern
must match some suffix of it. -/
def globMatch : List Char → List Char → Bool
  | [], s => s.isEmpty
  | p :: ps, s =>
    if p = '*' then anySuffix (fun s2 => globMatch ps s2) s
    else
      match s with
      | [] => false
      | c :: cs => (p == '?' || p == c) && globMatch ps cs

/-- `fnmatch.fnmatch(target, pattern)` on strings. -/
def fnmatch (pattern target : String) : Bool :=
  globMatch pattern.toList target.toList

/-- `Build._find_rule`: scan `self._rules` in order and return the first
handler whose pattern matches the target; `none` models the raised
`ValueError` (= `NoMatchingRule`) when no pattern matches. -/
def Build.findRule (rules : List (String × Nat)) (target : String) : Option Nat
  := match rules with
  | [] => none
  | (pattern, fn) :: rest =>
    if fnmatch pattern target then some fn else Build.findRule rest target

/-- The state change performed by the submit branch of `need` for an unknown
target: a fresh future is created for `self._executor.submit(self._build_target,
target, rule)` and the target is recorded in `self._building` mapped to it. -/
def submitState (s : Build) (t : String) (rid : Nat) : Build :=
  { s with
    building := (t, s.nextFid) :: s.building,
    futs := (s.nextFid, ⟨t, rid, FutStatus.running⟩) :: s.futs,
    nextFid := s.nextFid + 1 }

/-- The status a future takes when `Build._build_target` returns with outcome
`res`: resolved successfully when the handler returned, resolved with the
re-raised exception otherwise. -/
def resStatus : Option Err → FutStatus
  | none => FutStatus.resolvedOk
  | some e => FutStatus.resolvedErr e

/-- Resolution of the future with id `fid`: its status becomes the outcome of
the build, every other future is untouched. -/
def updFut (fid : Nat) (res : Option Err) (f : Nat × Fut) : Nat × Fut :=
  if f.1 = fid then (f.1, { f.2 with status := resStatus res }) else f

/-- The atomic state update performed under the lock by the `finally` block of
`Build._build_target`: on success (`res = none`) the target is added to
`self._done`, on failure (`res = some e`) it is added to `self._failed` with
the stored exception; in both cases its entry is deleted from
`self._building`, and the future resolves with the same outcome (the method
re-raises the captured exception, which the future stores). -/
def finishState (s : Build) (fid : Nat) (t : String) (res : Option Err) : Build :=
  { s with
    done := match res with | none => t :: s.done | some _ => s.done,
    failed := match res with | none => s.failed | some e => (t, e) :: s.failed,
    building := removeKey t s.building,
    futs := s.futs.map (updFut fid res) }

/-- Outcome of one iteration of the lock-protected loop body of `Build.need`
for a single target. -/
inductive Dispatch where
  | raised (e : Err)
  | skip
  | joinFut (fid : Nat)
  | submitFut (fid : Nat) (s2 : Build)
deriving DecidableEq, Repr

/-- One iteration of the loop inside `Build.need`, executed atomically under
`self._lock`: raise the stored exception for an already-failed target, skip a
done target, join the future of a building target, or look up a rule and
submit a new build (raising when no rule matches). -/
def need1 (s : Build) (t : String) : Dispatch :=
  match lookupKey t s.failed with
  | some e => Dispatch.raised e
  | none =>
    if t ∈ s.done then Dispatch.skip
    else
      match lookupKey t s.building with
      | some fid => Dispatch.joinFut fid
      | none =>
        match Build.findRule s.rules t with
        | some rid => Dispatch.submitFut s.nextFid (submitState s t rid)
        | none => Dispatch.raised (Err.noMatchingRule t)

/-- The per-target loop of `Build.need`, threading the scheduler state and
collecting the futures to wait on, in order.  A raise aborts the loop: the
state mutated by earlier iterations persists (their submitted futures keep
running), the current iteration mutates nothing, and later targets are not
processed. -/
def needLoop (s : Build) : List String → Build × List Nat × Option Err
  | [] => (s, [], none)
  | t :: ts =>
    match need1 s t with
    | Dispatch.raised e => (s, [], some e)
    | Dispatch.skip => needLoop s ts
    | Dispatch.joinFut fid =>
      let r := needLoop s ts
      (r.1, fid :: r.2.1, r.2.2)
    | Dispatch.submitFut fid s2 =>
      let r := needLoop s2 ts
      (r.1, fid :: r.2.1, r.2.2)

/-- The wait phase of `Build.need`: `for f in futures: f.result()` blocks on
each collected future in order; the first future whose wait raises aborts the
loop with that exception.  The eventual outcome of each future is given by the
oracle `r` (`none` = resolved successfully, `some e` = its build re-raised
`e`). -/
def firstErr (r : Nat → Option Err) : List Nat → Option Err
  | [] => none
  | f :: fs =>
    match r f with
    | some e => some e
    | none => firstErr r fs

/-- Result of a call to `Build.need`: the entry assertion
`assert self._executor is not None` failed, an exception was raised, or the
call returned after having waited on the listed futures (in order). -/
inductive NeedResult where
  | assertFailed
  | raised (e : Err)
  | ok (s2 : Build) (waited : List Nat)
deriving DecidableEq, Repr

/-- `Build.need`: assert that an executor is installed, run the per-target
loop, then wait on every collected future in order, propagating the first
exception. -/
def Build.need (s : Build) (ts : List String) (r : Nat → Option Err) : NeedResult :=
  match s.executor with
  | none => NeedResult.assertFailed
  | some _ =>
    match needLoop s ts with
    | (_, _, some e) => NeedResult.raised e
    | (s2, fs, none) =>
      match firstErr r fs with
      | some e => NeedResult.raised e
      | none => NeedResult.ok s2 fs

/-- Default worker count of `concurrent.futures.ThreadPoolExecutor()`:
`min(32, cpus + 4)` where `cpus` is the host CPU count. -/
def defaultMaxWorkers (cpus : Nat) : Nat := min 32 (cpus + 4)

/-- `self._executor = executor` inside the `with ThreadPoolExecutor() as
executor` block of `Build.run`, with the default pool size. -/
def installExec (s : Build) (cpus : Nat) : Build :=
  { s with executor := some (defaultMaxWorkers cpus) }

/-- What a call to `Build.run` did: the result of its `need` call, and the
pool teardown performed by the `with` block on exit (`shutdownCalled`), which
waits for still-running submitted tasks to finish (`shutdownWaited`, the
`shutdown(wait=True)` default). -/
structure RunOutcome where
  needResult : NeedResult
  shutdownCalled : Bool
  shutdownWaited : Bool
deriving DecidableEq, Repr

/-- `Build.run`: enter `with ThreadPoolExecutor() as executor`, install the
pool as `self._executor`, and synchronously call `self.need(target)`.  The
`with` block calls `executor.shutdown(wait=True)` on exit whether `need`
returned or raised, so teardown happens and waits on both paths. -/
def Build.run (s : Build) (cpus : Nat) (r : Nat → Option Err) (target : String) :
    RunOutcome :=
  { needResult := Build.need (installExec s cpus) [target] r,
    shutdownCalled := true,
    shutdownWaited := true }

/-- Labels of the atomic transitions of the scheduler: the five outcomes of a
lock-protected `need` loop iteration performed by some caller, and the
lock-protected terminal update of `Build._build_target` (with `res = none`
for success, `some e` when the handler raised `e`). -/
inductive Label where
  | raiseFailed (t : String) (e : Err)
  | skipDone (t : String)
  | join (t : String) (fid : Nat)
  | submit (t : String) (fid : Nat)
  | raiseNoRule (t : String)
  | finish (t : String) (fid : Nat) (res : Option Err)
deriving DecidableEq, Repr

/-- The target a dispatch label concerns (`none` for a finish step). -/
def dispatchTarget : Label → Option String
  | Label.raiseFailed t _ => some t
  | Label.skipDone t => some t
  | Label.join t _ => some t
  | Label.submit t _ => some t
  | Label.raiseNoRule t => some t
  | Label.finish _ _ _ => none

/-- The atomic transitions of the scheduler.  Every constructor is one
critical section of the Python code executed under `self._lock`, by whichever
thread holds the lock: arbitrary interleavings of concurrent `need` callers
and finishing builds are arbitrary sequences of these steps.  The first five
constructors are the possible outcomes of one iteration of the loop in
`Build.need` (their guards are the chain of checks of that iteration, in
source order); the last two are the `finally` block of `Build._build_target`
for a queued-or-running future, resolving it. -/
inductive Step : Build → Label → Build → Prop
  | raiseFailed {s : Build} {t : String} {e : Err}
      (hf : lookupKey t s.failed = some e) :
      Step s (Label.raiseFailed t e) s
  | skipDone {s : Build} {t : String}
      (hf : lookupKey t s.failed = none) (hd : t ∈ s.done) :
      Step s (Label.skipDone t) s
  | join {s : Build} {t : String} {fid : Nat}
      (hf : lookupKey t s.failed = none) (hd : t ∉ s.done)
      (hb : lookupKey t s.building = some fid) :
      Step s (Label.join t fid) s
  | submit {s : Build} {t : String} {rid : Nat}
      (hf : lookupKey t s.failed = none) (hd : t ∉ s.done)
      (hb : lookupKey t s.building = none)
      (hr : Build.findRule s.rules t = some rid)
      (hex : s.executor.isSome = true) :
      Step s (Label.submit t s.nextFid) (submitState s t rid)
  | raiseNoRule {s : Build} {t : String}
      (hf : lookupKey t s.failed = none) (hd : t ∉ s.done)
      (hb : lookupKey t s.building = none)
      (hr : Build.findRule s.rules t = none) :
      Step s (Label.raiseNoRule t) s
  | finishOk {s : Build} {fid : Nat} {t : String} {rid : Nat}
      (hm : (fid, Fut.mk t rid FutStatus.running) ∈ s.futs) :
      Step s (Label.finish t fid none) (finishState s fid t none)
  | finishErr {s : Build} {fid : Nat} {t : String} {rid : Nat} {e : Err}
      (hm : (fid, Fut.mk t rid FutStatus.running) ∈ s.futs) :
      Step s (Label.finish t fid (some e)) (finishState s fid t (some e))

/-- Finite executions of the scheduler: a sequence of atomic steps with its
list of labels. -/
inductive Trace : Build → List Label → Build → Prop
  | refl (s : Build) : Trace s [] s
  | cons {s s2 s3 : Build} {l : Label} {ls : List Label}
      (h : Step s l s2) (h2 : Trace s2 ls s3) : Trace s (l :: ls) s3

/-- The state invariant of the scheduler, holding at every state reachable by
`Step` from a freshly constructed `Build`: table keys are unique (they model
Python dicts), a done target is never also failed, each building entry points
at a queued-or-running future for that target, at most one future ever exists
per target and per id, future ids are below the fresh counter, and the status
of each future agrees with the tables (running futures are exactly the
building entries; a future resolved successfully or with an exception has its
target recorded in the done or failed table with the same stored
exception). -/
structure Inv (s : Build) : Prop where
  building_uniq : ∀ p ∈ s.building, ∀ q ∈ s.building, p.1 = q.1 → p = q
  failed_uniq : ∀ p ∈ s.failed, ∀ q ∈ s.failed, p.1 = q.1 → p = q
  done_failed : ∀ t ∈ s.done, ∀ q ∈ s.failed, q.1 ≠ t
  fut_fresh : ∀ f ∈ s.futs, f.1 < s.nextFid
  fut_uniq : ∀ f ∈ s.futs, ∀ g ∈ s.futs, f.1 = g.1 → f = g
  fut_target_uniq : ∀ f ∈ s.futs, ∀ g ∈ s.futs, f.2.target = g.2.target → f = g
  building_fut : ∀ p ∈ s.building,
      ∃ rid, (p.2, Fut.mk p.1 rid FutStatus.running) ∈ s.futs
  run_building : ∀ f ∈ s.futs, f.2.status = FutStatus.running →
      (f.2.target, f.1) ∈ s.building
  ok_done : ∀ f ∈ s.futs, f.2.status = FutStatus.resolvedOk → f.2.target ∈ s.done
  err_failed : ∀ f ∈ s.futs, ∀ e, f.2.status = FutStatus.resolvedErr e →
      (f.2.target, e) ∈ s.failed
  done_fut : ∀ t ∈ s.done,
      ∃ f ∈ s.futs, f.2.target = t ∧ f.2.status = FutStatus.resolvedOk
  failed_fut : ∀ q ∈ s.failed,
      ∃ f ∈ s.futs, f.2.target = q.1 ∧ f.2.status = FutStatus.resolvedErr q.2

/-- A target is known to the scheduler when it occurs in one of the three
state tables; an unknown target occurs in none. -/
def Known (t : String) (s : Build) : Prop :=
  (lookupKey t s.building).isSome = true ∨ t ∈ s.done ∨
    (lookupKey t s.failed).isSome = true

/-- How many steps of a trace submit a build of target `t`. -/
def countSubmit (t : String) : List Label → Nat
  | [] => 0
  | Label.submit t2 _ :: ls => (if t2 = t then 1 else 0) + countSubmit t ls
  | _ :: ls => countSubmit t ls

/-- How many steps of a trace finish a build of target `t`. -/
def countFinish (t : String) : List Label → Nat
  | [] => 0
  | Label.finish t2 _ _ :: ls => (if t2 = t then 1 else 0) + countFinish t ls
  | _ :: ls => countFinish t ls

/-- The status of the future with id `fid` in state `s`. -/
def futStatusOf (s : Build) (fid : Nat) : Option FutStatus :=
  (s.futs.filter (fun f => f.1 == fid)).head?.map (fun f => f.2.status)

/-- No queued-or-running future for target `t` exists in `s` (so no build of
`t` can finish any more). -/
def NoRun (t : String) (s : Build) : Prop :=
  ∀ f ∈ s.futs, f.2.target = t → f.2.status ≠ FutStatus.running

/-- A concrete two-rule table used in examples below: a literal rule for
target u (handler 0) registered before a literal rule for target t
(handler 1). -/
def rulesUT : List (String × Nat) := [("u", 0), ("t", 1)]

/-- A concrete scheduler over `rulesUT` at the start of a run on a 4-CPU
host, as produced by registering the two rules and entering `Build.run`. -/
def sW0 : Build :=
  installExec ((Build.init.rule "u" 0).rule "t" 1) 4

/-- `sW0` after the first demand of target t submitted its build. -/
def sW1 : Build := submitState sW0 "t" 1

/-- `sW1` after the build of target t completed successfully. -/
def sW2 : Build := finishState sW1 0 "t" none

/-- `sW0` after the first demand of target u submitted its build. -/
def sF1 : Build := submitState sW0 "u" 0

/-- `sF1` after the handler of u raised the exception with code 7. -/
def sF2 : Build := finishState sF1 0 "u" (some (Err.handlerFailure 7))

/-- `sF2` after the first demand of target t submitted its build. -/
def sF3 : Build := submitState sF2 "t" 1

/-- `sF3` after the handler of t raised the exception with code 3: both
targets are now permanently failed, with different stored exceptions. -/
def sF4 : Build := finishState sF3 1 "t" (some (Err.handlerFailure 3))

theorem lookupKey_eq_none {α : Type} {t : String} {l : List (String × α)} :
    lookupKey t l = none ↔ ∀ v, (t, v) ∉ l := by
  induction l with
  | nil => simp [lookupKey]
  | cons p rest ih =>
    simp only [lookupKey]
    by_cases h : p.1 = t
    · simp only [h, if_pos rfl]
      constructor
      · intro hc
        exact absurd hc (by simp)
      · intro hall
        exact absurd (hall p.2 ) (by simp [← h])
    · simp only [if_neg h, ih]
      constructor
      · intro hall v hmem
        rcases List.mem_cons.mp hmem with h1 | h1
        · exact h (by rw [← h1])
        · exact hall v h1
      · intro hall v hmem
        exact hall v (List.mem_cons_of_mem p hmem)

theorem mem_of_lookupKey_eq_some {α : Type} {t : String} {v : α}
    {l : List (String × α)} (h : lookupKey t l = some v) : (t, v) ∈ l := by
  induction l with
  | nil => simp [lookupKey] at h
  | cons p rest ih =>
    simp only [lookupKey] at h
    by_cases hp : p.1 = t
    · rw [if_pos hp] at h
      have : p = (t, v) := by
        cases p
        simp only at hp
        simp only [Option.some.injEq] at h
        simp [hp, h]
      simp [← this]
    · rw [if_neg hp] at h
      exact List.mem_cons_of_mem p (ih h)

theorem lookupKey_ne_none_of_mem {α : Type} {t : String} {v : α}
    {l : List (String × α)} (h : (t, v) ∈ l) : lookupKey t l ≠ none := by
  intro hn
  exact (lookupKey_eq_none.mp hn) v h

theorem not_mem_of_lookupKey_eq_none {α : Type} {t : String} {v : α}
    {l : List (String × α)} (h : lookupKey t l = none) : (t, v) ∉ l :=
  lookupKey_eq_none.mp h v

theorem lookupKey_cons_self {α : Type} {t : String} {v : α}
    {l : List (String × α)} : lookupKey t ((t, v) :: l) = some v := by
  simp [lookupKey]

theorem lookupKey_cons_ne {α : Type} {t k : String} {v : α}
    {l : List (String × α)} (h : k ≠ t) :
    lookupKey t ((k, v) :: l) = lookupKey t l := by
  simp [lookupKey, h]

theorem mem_removeKey {α : Type} {t : String} {p : String × α}
    {l : List (String × α)} : p ∈ removeKey t l ↔ p ∈ l ∧ p.1 ≠ t := by
  induction l with
  | nil => simp [removeKey]
  | cons q rest ih =>
    simp only [removeKey]
    by_cases hq : q.1 = t
    · rw [if_pos hq, ih]
      constructor
      · intro ⟨h1, h2⟩
        exact ⟨List.mem_cons_of_mem q h1, h2⟩
      · intro ⟨h1, h2⟩
        rcases List.mem_cons.mp h1 with h3 | h3
        · exact absurd (h3 ▸ hq) h2
        · exact ⟨h3, h2⟩
    · rw [if_neg hq]
      simp only [List.mem_cons, ih]
      constructor
      · intro h
        rcases h with h1 | ⟨h1, h2⟩
        · exact ⟨Or.inl h1, h1 ▸ hq⟩
        · exact ⟨Or.inr h1, h2⟩
      · intro ⟨h1, h2⟩
        rcases h1 with h3 | h3
        · exact Or.inl h3
        · exact Or.inr ⟨h3, h2⟩

theorem lookupKey_removeKey_self {α : Type} {t : String}
    {l : List (String × α)} : lookupKey t (removeKey t l) = none := by
  rw [lookupKey_eq_none]
  intro v hmem
  exact (mem_removeKey.mp hmem).2 rfl

theorem inv_empty {s : Build} (hb : s.building = []) (hd : s.done = [])
    (hf : s.failed = []) (hfu : s.futs = []) : Inv s := by
  constructor <;> simp [hb, hd, hf, hfu]

theorem running_not_done {s : Build} {fid : Nat} {f : Fut} (hI : Inv s)
    (hm : (fid, f) ∈ s.futs) (hr : f.status = FutStatus.running) :
    f.target ∉ s.done := by
  intro hd
  obtain ⟨g, hg, hgt, hgs⟩ := hI.done_fut _ hd
  have hge : g = (fid, f) := hI.fut_target_uniq g hg (fid, f) hm hgt
  rw [hge] at hgs
  simp only at hgs
  rw [hr] at hgs
  exact FutStatus.noConfusion hgs

theorem running_not_failed {s : Build} {fid : Nat} {f : Fut} (hI : Inv s)
    (hm : (fid, f) ∈ s.futs) (hr : f.status = FutStatus.running) :
    lookupKey f.target s.failed = none := by
  cases he : lookupKey f.target s.failed with
  | none => rfl
  | some e =>
    obtain ⟨g, hg, hgt, hgs⟩ := hI.failed_fut _ (mem_of_lookupKey_eq_some he)
    have hge : g = (fid, f) := hI.fut_target_uniq g hg (fid, f) hm hgt
    rw [hge] at hgs
    simp only at hgs
    rw [hr] at hgs
    exact FutStatus.noConfusion hgs

theorem done_not_failed {s : Build} {t : String} (hI : Inv s)
    (hd : t ∈ s.done) : lookupKey t s.failed = none := by
  cases he : lookupKey t s.failed with
  | none => rfl
  | some e => exact absurd rfl (hI.done_failed t hd (t, e) (mem_of_lookupKey_eq_some he))

theorem done_not_building {s : Build} {t : String} (hI : Inv s)
    (hd : t ∈ s.done) : lookupKey t s.building = none := by
  cases hb : lookupKey t s.building with
  | none => rfl
  | some fid =>
    obtain ⟨rid, hm⟩ := hI.building_fut (t, fid) (mem_of_lookupKey_eq_some hb)
    exact absurd hd (running_not_done hI hm rfl)

theorem failed_not_done {s : Build} {t : String} {e : Err} (hI : Inv s)
    (he : lookupKey t s.failed = some e) : t ∉ s.done := by
  intro hd
  rw [done_not_failed hI hd] at he
  exact Option.noConfusion he

theorem failed_not_building {s : Build} {t : String} {e : Err} (hI : Inv s)
    (he : lookupKey t s.failed = some e) : lookupKey t s.building = none := by
  cases hb : lookupKey t s.building with
  | none => rfl
  | some fid =>
    obtain ⟨rid, hm⟩ := hI.building_fut (t, fid) (mem_of_lookupKey_eq_some hb)
    rw [running_not_failed hI hm rfl] at he
    exact Option.noConfusion he

theorem building_not_done {s : Build} {t : String} {fid : Nat} (hI : Inv s)
    (hb : lookupKey t s.building = some fid) : t ∉ s.done := by
  obtain ⟨rid, hm⟩ := hI.building_fut (t, fid) (mem_of_lookupKey_eq_some hb)
  exact running_not_done hI hm rfl

theorem building_not_failed {s : Build} {t : String} {fid : Nat} (hI : Inv s)
    (hb : lookupKey t s.building = some fid) : lookupKey t s.failed = none := by
  obtain ⟨rid, hm⟩ := hI.building_fut (t, fid) (mem_of_lookupKey_eq_some hb)
  exact running_not_failed hI hm rfl

theorem lookupKey_removeKey_ne {α : Type} {t k : String}
    {l : List (String × α)} (h : k ≠ t) :
    lookupKey k (removeKey t l) = lookupKey k l := by
  induction l with
  | nil => simp [removeKey]
  | cons q rest ih =>
    simp only [removeKey]
    by_cases hq : q.1 = t
    · rw [if_pos hq, ih, lookupKey]
      rw [if_neg (by rw [hq]; exact fun hh => h hh.symm)]
    · rw [if_neg hq]
      simp only [lookupKey]
      by_cases hk : q.1 = k
      · rw [if_pos hk, if_pos hk]
      · rw [if_neg hk, if_neg hk, ih]

theorem key_ne_of_lookupKey_eq_none {α : Type} {t : String}
    {l : List (String × α)} (h : lookupKey t l = none) :
    ∀ q ∈ l, q.1 ≠ t := by
  intro q hq he
  exact lookupKey_ne_none_of_mem (show (t, q.2) ∈ l by
    rw [← he]; exact Prod.mk.eta ▸ hq) h

theorem no_fut_for_unknown {s : Build} {t : String} (hI : Inv s)
    (hf : lookupKey t s.failed = none) (hd : t ∉ s.done)
    (hb : lookupKey t s.building = none) :
    ∀ f ∈ s.futs, f.2.target ≠ t := by
  intro f hfm heq
  cases hst : f.2.status with
  | running =>
    have hmem := hI.run_building f hfm hst
    rw [heq] at hmem
    exact lookupKey_ne_none_of_mem hmem hb
  | resolvedOk =>
    have hmem := hI.ok_done f hfm hst
    rw [heq] at hmem
    exact hd hmem
  | resolvedErr e =>
    have hmem := hI.err_failed f hfm e hst
    rw [heq] at hmem
    exact lookupKey_ne_none_of_mem hmem hf

theorem inv_submitState {s : Build} {t : String} {rid : Nat} (hI : Inv s)
    (hf : lookupKey t s.failed = none) (hd : t ∉ s.done)
    (hb : lookupKey t s.building = none) : Inv (submitState s t rid) := by
  have hnt : ∀ f ∈ s.futs, f.2.target ≠ t := no_fut_for_unknown hI hf hd hb
  have hnotb : ∀ q ∈ s.building, q.1 ≠ t := key_ne_of_lookupKey_eq_none hb
  have hfid : ∀ f ∈ s.futs, f.1 ≠ s.nextFid := by
    intro f hfm heq
    have := hI.fut_fresh f hfm
    omega
  refine ⟨?_, ?_, ?_, ?_, ?_, ?_, ?_, ?_, ?_, ?_, ?_, ?_⟩
  · intro p hp q hq he
    simp only [submitState, List.mem_cons] at hp hq
    rcases hp with hp | hp <;> rcases hq with hq | hq
    · rw [hp, hq]
    · rw [hp] at he
      exact absurd he.symm (hnotb q hq)
    · rw [hq] at he
      exact absurd he (hnotb p hp)
    · exact hI.building_uniq p hp q hq he
  · intro p hp q hq he
    simp only [submitState] at hp hq
    exact hI.failed_uniq p hp q hq he
  · intro t2 ht2 q hq
    simp only [submitState] at ht2 hq
    exact hI.done_failed t2 ht2 q hq
  · intro f hfm
    simp only [submitState, List.mem_cons] at hfm ⊢
    rcases hfm with hfm | hfm
    · rw [hfm]; omega
    · have := hI.fut_fresh f hfm; omega
  · intro f hfm g hgm he
    simp only [submitState, List.mem_cons] at hfm hgm
    rcases hfm with hfm | hfm <;> rcases hgm with hgm | hgm
    · rw [hfm, hgm]
    · rw [hfm] at he
      exact absurd he.symm (hfid g hgm)
    · rw [hgm] at he
      exact absurd he (hfid f hfm)
    · exact hI.fut_uniq f hfm g hgm he
  · intro f hfm g hgm he
    simp only [submitState, List.mem_cons] at hfm hgm
    rcases hfm with hfm | hfm <;> rcases hgm with hgm | hgm
    · rw [hfm, hgm]
    · rw [hfm] at he
      exact absurd he.symm (hnt g hgm)
    · rw [hgm] at he
      exact absurd he (hnt f hfm)
    · exact hI.fut_target_uniq f hfm g hgm he
  · intro p hp
    simp only [submitState, List.mem_cons] at hp ⊢
    rcases hp with hp | hp
    · exact ⟨rid, Or.inl (by rw [hp])⟩
    · obtain ⟨rid2, hm⟩ := hI.building_fut p hp
      exact ⟨rid2, Or.inr hm⟩
  · intro f hfm hst
    simp only [submitState, List.mem_cons] at hfm ⊢
    rcases hfm with hfm | hfm
    · rw [hfm]
      exact Or.inl rfl
    · exact Or.inr (hI.run_building f hfm hst)
  · intro f hfm hst
    simp only [submitState, List.mem_cons] at hfm ⊢
    rcases hfm with hfm | hfm
    · rw [hfm] at hst
      exact absurd hst (by simp)
    · exact hI.ok_done f hfm hst
  · intro f hfm e hst
    simp only [submitState, List.mem_cons] at hfm ⊢
    rcases hfm with hfm | hfm
    · rw [hfm] at hst
      exact absurd hst (by simp)
    · exact hI.err_failed f hfm e hst
  · intro t2 ht2
    simp only [submitState, List.mem_cons] at ht2 ⊢
    obtain ⟨f, hfm, hft, hfs⟩ := hI.done_fut t2 ht2
    exact ⟨f, Or.inr hfm, hft, hfs⟩
  · intro q hq
    simp only [submitState, List.mem_cons] at hq ⊢
    obtain ⟨f, hfm, hft, hfs⟩ := hI.failed_fut q hq
    exact ⟨f, Or.inr hfm, hft, hfs⟩

theorem updFut_fst (fid : Nat) (res : Option Err) (f : Nat × Fut) :
    (updFut fid res f).1 = f.1 := by
  unfold updFut
  split <;> rfl

theorem updFut_target (fid : Nat) (res : Option Err) (f : Nat × Fut) :
    (updFut fid res f).2.target = f.2.target := by
  unfold updFut
  split <;> rfl

theorem updFut_of_ne {fid : Nat} {res : Option Err} {f : Nat × Fut}
    (h : f.1 ≠ fid) : updFut fid res f = f := by
  unfold updFut
  rw [if_neg h]

theorem updFut_self {fid : Nat} {res : Option Err} {g : Fut} :
    updFut fid res (fid, g) = (fid, { g with status := resStatus res }) := by
  simp [updFut]

theorem resStatus_ne_running (res : Option Err) :
    resStatus res ≠ FutStatus.running := by
  cases res <;> simp [resStatus]

theorem resStatus_ok_iff {res : Option Err} :
    resStatus res = FutStatus.resolvedOk ↔ res = none := by
  cases res <;> simp [resStatus]

theorem resStatus_err_iff {res : Option Err} {e : Err} :
    resStatus res = FutStatus.resolvedErr e ↔ res = some e := by
  cases res <;> simp [resStatus]

theorem inv_finishState {s : Build} {fid : Nat} {t : String} {rid : Nat}
    {res : Option Err} (hI : Inv s)
    (hm : (fid, Fut.mk t rid FutStatus.running) ∈ s.futs) :
    Inv (finishState s fid t res) := by
  have hFid : ∀ g ∈ s.futs, g.1 = fid → g = (fid, Fut.mk t rid FutStatus.running) :=
    fun g hg he => hI.fut_uniq g hg _ hm he
  have hFt : ∀ g ∈ s.futs, g.2.target = t → g = (fid, Fut.mk t rid FutStatus.running) :=
    fun g hg he => hI.fut_target_uniq g hg _ hm he
  have hdone : t ∉ s.done := running_not_done hI hm rfl
  have hfail : lookupKey t s.failed = none := running_not_failed hI hm rfl
  have hAne : ∀ g ∈ s.futs, g.1 ≠ fid → g.2.target ≠ t := by
    intro g hg hne he
    exact hne (congrArg Prod.fst (hFt g hg he))
  have hnof : ∀ q ∈ s.failed, q.1 ≠ t := key_ne_of_lookupKey_eq_none hfail
  have hdone2 : ∀ t2, t2 ∈ (finishState s fid t res).done ↔
      (res = none ∧ t2 = t) ∨ t2 ∈ s.done := by
    intro t2
    cases res <;> simp [finishState]
  have hfail2 : ∀ q, q ∈ (finishState s fid t res).failed ↔
      (∃ e, res = some e ∧ q = (t, e)) ∨ q ∈ s.failed := by
    intro q
    cases res <;> simp [finishState]
  have hmem2 : ∀ g2, g2 ∈ (finishState s fid t res).futs ↔
      ∃ g ∈ s.futs, updFut fid res g = g2 := by
    intro g2
    simp [finishState]
  have hkeep : ∀ g ∈ s.futs, g.1 ≠ fid → g ∈ (finishState s fid t res).futs := by
    intro g hg hne
    rw [hmem2]
    exact ⟨g, hg, updFut_of_ne hne⟩
  have hnew : (fid, Fut.mk t rid (resStatus res)) ∈ (finishState s fid t res).futs := by
    rw [hmem2]
    exact ⟨(fid, Fut.mk t rid FutStatus.running), hm, updFut_self⟩
  have hbmem : ∀ p, p ∈ (finishState s fid t res).building ↔
      p ∈ s.building ∧ p.1 ≠ t := by
    intro p
    simp only [finishState]
    exact mem_removeKey
  refine ⟨?_, ?_, ?_, ?_, ?_, ?_, ?_, ?_, ?_, ?_, ?_, ?_⟩
  · intro p hp q hq he
    rw [hbmem] at hp hq
    exact hI.building_uniq p hp.1 q hq.1 he
  · intro p hp q hq he
    rw [hfail2] at hp hq
    rcases hp with ⟨e1, hr1, hp⟩ | hp <;> rcases hq with ⟨e2, hr2, hq⟩ | hq
    · rw [hp, hq]
      rw [hr1] at hr2
      rw [Option.some.injEq] at hr2
      rw [hr2]
    · rw [hp] at he
      exact absurd he.symm (hnof q hq)
    · rw [hq] at he
      exact absurd he (hnof p hp)
    · exact hI.failed_uniq p hp q hq he
  · intro t2 ht2 q hq
    rw [hdone2] at ht2
    rw [hfail2] at hq
    rcases ht2 with ⟨hr1, ht2⟩ | ht2 <;> rcases hq with ⟨e2, hr2, hq⟩ | hq
    · rw [hr1] at hr2
      exact Option.noConfusion hr2
    · rw [ht2]
      exact hnof q hq
    · rw [hq]
      intro he
      rw [← he] at ht2
      exact hdone ht2
    · exact hI.done_failed t2 ht2 q hq
  · intro f hfm
    rw [hmem2] at hfm
    obtain ⟨g, hg, hup⟩ := hfm
    rw [← hup]
    rw [updFut_fst]
    have : (finishState s fid t res).nextFid = s.nextFid := by simp [finishState]
    rw [this]
    exact hI.fut_fresh g hg
  · intro f hfm g hgm he
    rw [hmem2] at hfm hgm
    obtain ⟨f0, hf0, hupf⟩ := hfm
    obtain ⟨g0, hg0, hupg⟩ := hgm
    rw [← hupf, ← hupg] at he
    rw [updFut_fst, updFut_fst] at he
    rw [← hupf, ← hupg, hI.fut_uniq f0 hf0 g0 hg0 he]
  · intro f hfm g hgm he
    rw [hmem2] at hfm hgm
    obtain ⟨f0, hf0, hupf⟩ := hfm
    obtain ⟨g0, hg0, hupg⟩ := hgm
    rw [← hupf, ← hupg] at he
    rw [updFut_target, updFut_target] at he
    rw [← hupf, ← hupg, hI.fut_target_uniq f0 hf0 g0 hg0 he]
  · intro p hp
    rw [hbmem] at hp
    obtain ⟨rid2, hm2⟩ := hI.building_fut p hp.1
    have hpne : p.2 ≠ fid := by
      intro he
      have := hFid _ hm2 he
      rw [Prod.mk.injEq, Fut.mk.injEq] at this
      exact hp.2 this.2.1
    exact ⟨rid2, hkeep _ hm2 hpne⟩
  · intro f hfm hst
    rw [hmem2] at hfm
    obtain ⟨g, hg, hup⟩ := hfm
    by_cases hg1 : g.1 = fid
    · have hgF := hFid g hg hg1
      rw [hgF] at hup
      rw [updFut_self] at hup
      rw [← hup] at hst
      exact absurd hst (resStatus_ne_running res)
    · rw [updFut_of_ne hg1] at hup
      rw [← hup] at hst ⊢
      have hb2 := hI.run_building g hg hst
      rw [hbmem]
      exact ⟨hb2, hAne g hg hg1⟩
  · intro f hfm hst
    rw [hmem2] at hfm
    obtain ⟨g, hg, hup⟩ := hfm
    by_cases hg1 : g.1 = fid
    · have hgF := hFid g hg hg1
      rw [hgF] at hup
      rw [updFut_self] at hup
      rw [← hup] at hst ⊢
      simp only at hst
      rw [resStatus_ok_iff] at hst
      rw [hdone2]
      exact Or.inl ⟨hst, rfl⟩
    · rw [updFut_of_ne hg1] at hup
      rw [← hup] at hst ⊢
      rw [hdone2]
      exact Or.inr (hI.ok_done g hg hst)
  · intro f hfm e hst
    rw [hmem2] at hfm
    obtain ⟨g, hg, hup⟩ := hfm
    by_cases hg1 : g.1 = fid
    · have hgF := hFid g hg hg1
      rw [hgF] at hup
      rw [updFut_self] at hup
      rw [← hup] at hst ⊢
      simp only at hst
      rw [resStatus_err_iff] at hst
      rw [hfail2]
      exact Or.inl ⟨e, hst, rfl⟩
    · rw [updFut_of_ne hg1] at hup
      rw [← hup] at hst ⊢
      rw [hfail2]
      exact Or.inr (hI.err_failed g hg e hst)
  · intro t2 ht2
    rw [hdone2] at ht2
    rcases ht2 with ⟨hr, ht2⟩ | ht2
    · refine ⟨(fid, Fut.mk t rid (resStatus res)), hnew, ht2.symm, ?_⟩
      rw [resStatus_ok_iff]
      exact hr
    · obtain ⟨f, hfm, hft, hfs⟩ := hI.done_fut t2 ht2
      have hfne : f.1 ≠ fid := by
        intro he
        have := hFid f hfm he
        rw [this] at hfs
        simp only at hfs
        exact FutStatus.noConfusion hfs
      exact ⟨f, hkeep f hfm hfne, hft, hfs⟩
  · intro q hq
    rw [hfail2] at hq
    rcases hq with ⟨e, hr, hq⟩ | hq
    · refine ⟨(fid, Fut.mk t rid (resStatus res)), hnew, ?_, ?_⟩
      · rw [hq]
      · rw [hq]
        simp only
        rw [resStatus_err_iff]
        exact hr
    · obtain ⟨f, hfm, hft, hfs⟩ := hI.failed_fut q hq
      have hfne : f.1 ≠ fid := by
        intro he
        have := hFid f hfm he
        rw [this] at hfs
        simp only at hfs
        exact FutStatus.noConfusion hfs
      exact ⟨f, hkeep f hfm hfne, hft, hfs⟩

theorem inv_step {s s2 : Build} {l : Label} (h : Step s l s2) (hI : Inv s) :
    Inv s2 := by
  cases h with
  | raiseFailed hf => exact hI
  | skipDone hf hd => exact hI
  | join hf hd hb => exact hI
  | submit hf hd hb hr hex => exact inv_submitState hI hf hd hb
  | raiseNoRule hf hd hb hr => exact hI
  | finishOk hm => exact inv_finishState hI hm
  | finishErr hm => exact inv_finishState hI hm

theorem inv_trace {s s2 : Build} {ls : List Label} (h : Trace s ls s2)
    (hI : Inv s) : Inv s2 := by
  induction h with
  | refl s => exact hI
  | cons hstep htr ih => exact ih (inv_step hstep hI)

theorem done_mono_step {s s2 : Build} {l : Label} {t : String}
    (h : Step s l s2) (hd : t ∈ s.done) : t ∈ s2.done := by
  cases h with
  | raiseFailed hf => exact hd
  | skipDone hf hd2 => exact hd
  | join hf hd2 hb => exact hd
  | submit hf hd2 hb hr hex => exact hd
  | raiseNoRule hf hd2 hb hr => exact hd
  | finishOk hm =>
    simp only [finishState]
    exact List.mem_cons_of_mem _ hd
  | finishErr hm => exact hd

theorem done_mono {s s2 : Build} {ls : List Label} {t : String}
    (h : Trace s ls s2) (hd : t ∈ s.done) : t ∈ s2.done := by
  induction h with
  | refl s => exact hd
  | cons hstep htr ih => exact ih (done_mono_step hstep hd)

theorem failed_mono_step {s s2 : Build} {l : Label} {t : String} {e : Err}
    (h : Step s l s2) (hI : Inv s) (he : lookupKey t s.failed = some e) :
    lookupKey t s2.failed = some e := by
  cases h with
  | raiseFailed hf => exact he
  | skipDone hf hd => exact he
  | join hf hd hb => exact he
  | submit hf hd hb hr hex => exact he
  | raiseNoRule hf hd hb hr => exact he
  | finishOk hm => exact he
  | @finishErr fid t2 rid e2 hm =>
    have hn : lookupKey t2 s.failed = none := running_not_failed hI hm rfl
    have hne : t2 ≠ t := by
      intro hq
      rw [hq, he] at hn
      exact Option.noConfusion hn
    simp only [finishState]
    rw [lookupKey_cons_ne hne]
    exact he

theorem failed_mono {s s2 : Build} {ls : List Label} {t : String} {e : Err}
    (h : Trace s ls s2) (hI : Inv s) (he : lookupKey t s.failed = some e) :
    lookupKey t s2.failed = some e := by
  induction h with
  | refl s => exact he
  | cons hstep htr ih => exact ih (inv_step hstep hI) (failed_mono_step hstep hI he)

theorem known_mono_step {s s2 : Build} {l : Label} {t : String}
    (h : Step s l s2) (hk : Known t s) : Known t s2 := by
  cases h with
  | raiseFailed hf => exact hk
  | skipDone hf hd => exact hk
  | join hf hd hb => exact hk
  | raiseNoRule hf hd hb hr => exact hk
  | @submit t2 rid hf hd hb hr hex =>
    rcases hk with hk | hk | hk
    · left
      simp only [submitState]
      by_cases hq : t2 = t
      · rw [hq, lookupKey_cons_self]
        rfl
      · rw [lookupKey_cons_ne hq]
        exact hk
    · exact Or.inr (Or.inl hk)
    · exact Or.inr (Or.inr hk)
  | @finishOk fid t2 rid hm =>
    rcases hk with hk | hk | hk
    · by_cases hq : t2 = t
      · right
        left
        simp only [finishState]
        rw [hq]
        exact List.mem_cons_self t _
      · left
        simp only [finishState]
        rw [lookupKey_removeKey_ne (fun hh => hq hh.symm)]
        exact hk
    · right
      left
      simp only [finishState]
      exact List.mem_cons_of_mem _ hk
    · exact Or.inr (Or.inr hk)
  | @finishErr fid t2 rid e2 hm =>
    rcases hk with hk | hk | hk
    · by_cases hq : t2 = t
      · right
        right
        simp only [finishState]
        rw [hq, lookupKey_cons_self]
        rfl
      · left
        simp only [finishState]
        rw [lookupKey_removeKey_ne (fun hh => hq hh.symm)]
        exact hk
    · exact Or.inr (Or.inl hk)
    · right
      right
      simp only [finishState]
      by_cases hq : t2 = t
      · rw [hq, lookupKey_cons_self]
        rfl
      · rw [lookupKey_cons_ne hq]
        exact hk

theorem known_of_submit {s s2 : Build} {t : String} {fid : Nat}
    (h : Step s (Label.submit t fid) s2) : Known t s2 := by
  cases h with
  | submit hf hd hb hr hex =>
    left
    simp only [submitState]
    rw [lookupKey_cons_self]
    rfl

theorem not_known_of_submit {s s2 : Build} {t : String} {fid : Nat}
    (h : Step s (Label.submit t fid) s2) : ¬ Known t s := by
  cases h with
  | submit hf hd hb hr hex =>
    intro hk
    rcases hk with hk | hk | hk
    · rw [hb] at hk
      exact Bool.noConfusion hk
    · exact hd hk
    · rw [hf] at hk
      exact Bool.noConfusion hk

theorem known_mono {s s2 : Build} {ls : List Label} {t : String}
    (h : Trace s ls s2) (hk : Known t s) : Known t s2 := by
  induction h with
  | refl s => exact hk
  | cons hstep htr ih => exact ih (known_mono_step hstep hk)

theorem countSubmit_eq_zero {s s2 : Build} {ls : List Label} {t : String}
    (h : Trace s ls s2) (hk : Known t s) : countSubmit t ls = 0 := by
  induction h with
  | refl s => rfl
  | @cons s s3 s4 l ls2 hstep htr ih =>
    have ihz := ih (known_mono_step hstep hk)
    cases l with
    | submit t2 fid =>
      by_cases hq : t2 = t
      · subst t2
        exact absurd hk (not_known_of_submit hstep)
      · simp only [countSubmit, if_neg hq, ihz]
    | raiseFailed t2 e => simpa only [countSubmit] using ihz
    | skipDone t2 => simpa only [countSubmit] using ihz
    | join t2 fid => simpa only [countSubmit] using ihz
    | raiseNoRule t2 => simpa only [countSubmit] using ihz
    | finish t2 fid res => simpa only [countSubmit] using ihz

theorem countSubmit_le_one {s s2 : Build} {ls : List Label} {t : String}
    (h : Trace s ls s2) : countSubmit t ls ≤ 1 := by
  induction h with
  | refl s => exact Nat.zero_le 1
  | @cons s s3 s4 l ls2 hstep htr ih =>
    cases l with
    | submit t2 fid =>
      by_cases hq : t2 = t
      · subst t2
        have h0 : countSubmit t ls2 = 0 :=
          countSubmit_eq_zero htr (known_of_submit hstep)
        simp [countSubmit, h0]
      · simpa only [countSubmit, if_neg hq, Nat.zero_add] using ih
    | raiseFailed t2 e => simpa only [countSubmit] using ih
    | skipDone t2 => simpa only [countSubmit] using ih
    | join t2 fid => simpa only [countSubmit] using ih
    | raiseNoRule t2 => simpa only [countSubmit] using ih
    | finish t2 fid res => simpa only [countSubmit] using ih

theorem norun_mono_step {s s2 : Build} {l : Label} {t : String}
    (h : Step s l s2) (hk : Known t s) (hn : NoRun t s) : NoRun t s2 := by
  cases h with
  | raiseFailed hf => exact hn
  | skipDone hf hd => exact hn
  | join hf hd hb => exact hn
  | raiseNoRule hf hd hb hr => exact hn
  | @submit t2 rid hf hd hb hr hex =>
    have hne : t2 ≠ t := by
      intro hq
      subst hq
      rcases hk with hk | hk | hk
      · rw [hb] at hk
        exact Bool.noConfusion hk
      · exact hd hk
      · rw [hf] at hk
        exact Bool.noConfusion hk
    intro g hg htg hst
    simp only [submitState, List.mem_cons] at hg
    rcases hg with hg | hg
    · rw [hg] at htg
      exact hne htg
    · exact hn g hg htg hst
  | @finishOk fid t2 rid hm =>
    intro g2 hg2 htg hst
    simp only [finishState, List.mem_map] at hg2
    obtain ⟨g, hg, hup⟩ := hg2
    rw [← hup] at htg hst
    rw [updFut_target] at htg
    by_cases hg1 : g.1 = fid
    · rw [updFut] at hst
      rw [if_pos hg1] at hst
      simp only at hst
      exact resStatus_ne_running none hst
    · rw [updFut_of_ne hg1] at hst
      exact hn g hg htg hst
  | @finishErr fid t2 rid e2 hm =>
    intro g2 hg2 htg hst
    simp only [finishState, List.mem_map] at hg2
    obtain ⟨g, hg, hup⟩ := hg2
    rw [← hup] at htg hst
    rw [updFut_target] at htg
    by_cases hg1 : g.1 = fid
    · rw [updFut] at hst
      rw [if_pos hg1] at hst
      simp only at hst
      exact resStatus_ne_running (some e2) hst
    · rw [updFut_of_ne hg1] at hst
      exact hn g hg htg hst

theorem norun_after_finish {s : Build} {fid : Nat} {t : String} {rid : Nat}
    {res : Option Err} (hI : Inv s)
    (hm : (fid, Fut.mk t rid FutStatus.running) ∈ s.futs) :
    NoRun t (finishState s fid t res) := by
  intro g2 hg2 htg hst
  simp only [finishState, List.mem_map] at hg2
  obtain ⟨g, hg, hup⟩ := hg2
  rw [← hup] at htg hst
  rw [updFut_target] at htg
  have hgF := hI.fut_target_uniq g hg _ hm htg
  have hg1 : g.1 = fid := congrArg Prod.fst hgF
  rw [updFut] at hst
  rw [if_pos hg1] at hst
  simp only at hst
  exact resStatus_ne_running res hst

theorem known_after_finish {s : Build} {fid : Nat} {t : String} {res : Option Err} :
    Known t (finishState s fid t res) := by
  cases res with
  | none =>
    right
    left
    simp [finishState]
  | some e =>
    right
    right
    simp only [finishState]
    rw [lookupKey_cons_self]
    rfl

theorem running_of_finish {s s2 : Build} {t : String} {fid : Nat} {res : Option Err}
    (h : Step s (Label.finish t fid res) s2) :
    ∃ rid, (fid, Fut.mk t rid FutStatus.running) ∈ s.futs := by
  cases h with
  | finishOk hm => exact ⟨_, hm⟩
  | finishErr hm => exact ⟨_, hm⟩

theorem countFinish_eq_zero {s s2 : Build} {ls : List Label} {t : String}
    (h : Trace s ls s2) (hk : Known t s) (hn : NoRun t s) :
    countFinish t ls = 0 := by
  induction h with
  | refl s => rfl
  | @cons s s3 s4 l ls2 hstep htr ih =>
    have ihz := ih (known_mono_step hstep hk) (norun_mono_step hstep hk hn)
    cases l with
    | finish t2 fid res =>
      by_cases hq : t2 = t
      · subst t2
        obtain ⟨rid, hm⟩ := running_of_finish hstep
        exact absurd rfl (hn _ hm rfl)
      · simp only [countFinish, if_neg hq, ihz]
    | raiseFailed t2 e => simpa only [countFinish] using ihz
    | skipDone t2 => simpa only [countFinish] using ihz
    | join t2 fid => simpa only [countFinish] using ihz
    | raiseNoRule t2 => simpa only [countFinish] using ihz
    | submit t2 fid => simpa only [countFinish] using ihz

theorem countFinish_le_one {s s2 : Build} {ls : List Label} {t : String}
    (h : Trace s ls s2) (hI : Inv s) : countFinish t ls ≤ 1 := by
  induction h with
  | refl s => exact Nat.zero_le 1
  | @cons s s3 s4 l ls2 hstep htr ih =>
    have hI3 : Inv s3 := inv_step hstep hI
    cases l with
    | finish t2 fid res =>
      by_cases hq : t2 = t
      · subst t2
        obtain ⟨rid, hm⟩ := running_of_finish hstep
        have hs3 : s3 = finishState s fid t res := by
          cases hstep with
          | finishOk hm2 => rfl
          | finishErr hm2 => rfl
        have h0 : countFinish t ls2 = 0 := by
          apply countFinish_eq_zero htr
          · rw [hs3]
            exact known_after_finish
          · rw [hs3]
            exact norun_after_finish hI hm
        simp [countFinish, h0]
      · simpa only [countFinish, if_neg hq, Nat.zero_add] using ih hI3
    | raiseFailed t2 e => simpa only [countFinish] using ih hI3
    | skipDone t2 => simpa only [countFinish] using ih hI3
    | join t2 fid => simpa only [countFinish] using ih hI3
    | raiseNoRule t2 => simpa only [countFinish] using ih hI3
    | submit t2 fid => simpa only [countFinish] using ih hI3

theorem need1_failed {s : Build} {t : String} {e : Err}
    (hf : lookupKey t s.failed = some e) : need1 s t = Dispatch.raised e := by
  unfold need1
  rw [hf]

theorem need1_done {s : Build} {t : String}
    (hf : lookupKey t s.failed = none) (hd : t ∈ s.done) :
    need1 s t = Dispatch.skip := by
  unfold need1
  rw [hf, if_pos hd]

theorem need1_building {s : Build} {t : String} {fid : Nat}
    (hf : lookupKey t s.failed = none) (hd : t ∉ s.done)
    (hb : lookupKey t s.building = some fid) :
    need1 s t = Dispatch.joinFut fid := by
  unfold need1
  rw [hf, if_neg hd, hb]

theorem need1_submit {s : Build} {t : String} {rid : Nat}
    (hf : lookupKey t s.failed = none) (hd : t ∉ s.done)
    (hb : lookupKey t s.building = none)
    (hr : Build.findRule s.rules t = some rid) :
    need1 s t = Dispatch.submitFut s.nextFid (submitState s t rid) := by
  unfold need1
  rw [hf, if_neg hd, hb, hr]

theorem need1_norule {s : Build} {t : String}
    (hf : lookupKey t s.failed = none) (hd : t ∉ s.done)
    (hb : lookupKey t s.building = none)
    (hr : Build.findRule s.rules t = none) :
    need1 s t = Dispatch.raised (Err.noMatchingRule t) := by
  unfold need1
  rw [hf, if_neg hd, hb, hr]

theorem needLoop_failed_eq (s : Build) (ts : List String) :
    (needLoop s ts).1.failed = s.failed := by
  induction ts generalizing s with
  | nil => rfl
  | cons t ts ih =>
    simp only [needLoop]
    cases hf : lookupKey t s.failed with
    | some e =>
      rw [need1_failed hf]
    | none =>
      by_cases hd : t ∈ s.done
      · rw [need1_done hf hd]
        exact ih s
      · cases hb : lookupKey t s.building with
        | some fid =>
          rw [need1_building hf hd hb]
          exact ih s
        | none =>
          cases hr : Build.findRule s.rules t with
          | some rid =>
            rw [need1_submit hf hd hb hr]
            simp only
            rw [ih (submitState s t rid)]
            rfl
          | none =>
            rw [need1_norule hf hd hb hr]

theorem needLoop_done_eq (s : Build) (ts : List String) :
    (needLoop s ts).1.done = s.done := by
  induction ts generalizing s with
  | nil => rfl
  | cons t ts ih =>
    simp only [needLoop]
    cases hf : lookupKey t s.failed with
    | some e =>
      rw [need1_failed hf]
    | none =>
      by_cases hd : t ∈ s.done
      · rw [need1_done hf hd]
        exact ih s
      · cases hb : lookupKey t s.building with
        | some fid =>
          rw [need1_building hf hd hb]
          exact ih s
        | none =>
          cases hr : Build.findRule s.rules t with
          | some rid =>
            rw [need1_submit hf hd hb hr]
            simp only
            rw [ih (submitState s t rid)]
            rfl
          | none =>
            rw [need1_norule hf hd hb hr]

theorem needLoop_building_mono {s : Build} {t : String} {fid : Nat}
    (ts : List String) (hb : lookupKey t s.building = some fid) :
    lookupKey t (needLoop s ts).1.building = some fid := by
  induction ts generalizing s with
  | nil => exact hb
  | cons t2 ts ih =>
    simp only [needLoop]
    cases hf : lookupKey t2 s.failed with
    | some e =>
      rw [need1_failed hf]
      exact hb
    | none =>
      by_cases hd : t2 ∈ s.done
      · rw [need1_done hf hd]
        exact ih hb
      · cases hb2 : lookupKey t2 s.building with
        | some fid2 =>
          rw [need1_building hf hd hb2]
          exact ih hb
        | none =>
          cases hr : Build.findRule s.rules t2 with
          | some rid =>
            rw [need1_submit hf hd hb2 hr]
            simp only
            apply ih
            simp only [submitState]
            have hne : t2 ≠ t := by
              intro hq
              rw [hq, hb] at hb2
              exact Option.noConfusion hb2
            rw [lookupKey_cons_ne hne]
            exact hb
          | none =>
            rw [need1_norule hf hd hb2 hr]
            exact hb

theorem needLoop_cons_raised {s : Build} {t : String} {ts : List String} {e : Err}
    (h1 : need1 s t = Dispatch.raised e) :
    needLoop s (t :: ts) = (s, [], some e) := by
  rw [needLoop, h1]

theorem needLoop_cons_skip {s : Build} {t : String} {ts : List String}
    (h1 : need1 s t = Dispatch.skip) :
    needLoop s (t :: ts) = needLoop s ts := by
  rw [needLoop, h1]

theorem needLoop_cons_join {s : Build} {t : String} {ts : List String} {fid : Nat}
    (h1 : need1 s t = Dispatch.joinFut fid) :
    needLoop s (t :: ts) =
      ((needLoop s ts).1, fid :: (needLoop s ts).2.1, (needLoop s ts).2.2) := by
  rw [needLoop, h1]

theorem needLoop_cons_submit {s s3 : Build} {t : String} {ts : List String} {fid : Nat}
    (h1 : need1 s t = Dispatch.submitFut fid s3) :
    needLoop s (t :: ts) =
      ((needLoop s3 ts).1, fid :: (needLoop s3 ts).2.1, (needLoop s3 ts).2.2) := by
  rw [needLoop, h1]

theorem needLoop_targets {ts : List String} {s s2 : Build} {fs : List Nat}
    (h : needLoop s ts = (s2, fs, none)) :
    ∀ t ∈ ts, t ∈ s2.done ∨ ∃ fid ∈ fs, lookupKey t s2.building = some fid := by
  induction ts generalizing s fs with
  | nil =>
    intro t ht
    exact absurd ht (List.not_mem_nil t)
  | cons t2 ts ih =>
    intro t ht
    cases hf : lookupKey t2 s.failed with
    | some e =>
      rw [needLoop_cons_raised (need1_failed hf)] at h
      rw [Prod.mk.injEq, Prod.mk.injEq] at h
      exact absurd h.2.2 Option.noConfusion
    | none =>
      by_cases hd : t2 ∈ s.done
      · rw [needLoop_cons_skip (need1_done hf hd)] at h
        rcases List.mem_cons.mp ht with hq | hq
        · left
          have hde : s2.done = s.done := by
            rw [← needLoop_done_eq s ts, h]
          rw [hde, hq]
          exact hd
        · exact ih h t hq
      · cases hb : lookupKey t2 s.building with
        | some fid2 =>
          rw [needLoop_cons_join (need1_building hf hd hb)] at h
          cases hlp : needLoop s ts with
          | mk s3 p =>
            cases p with
            | mk fs3 e3 =>
              rw [hlp] at h
              replace h : (s3, fid2 :: fs3, e3) = (s2, fs, none) := h
              rw [Prod.mk.injEq, Prod.mk.injEq] at h
              obtain ⟨hs3, hfs, he3⟩ := h
              rcases List.mem_cons.mp ht with hq | hq
              · right
                refine ⟨fid2, ?_, ?_⟩
                · rw [← hfs]
                  exact List.mem_cons_self fid2 fs3
                · have hmono := needLoop_building_mono (t := t2) ts hb
                  rw [hlp] at hmono
                  replace hmono : lookupKey t2 s3.building = some fid2 := hmono
                  rw [hs3] at hmono
                  rw [hq]
                  exact hmono
              · have hres := @ih s fs3 (by rw [hlp, hs3, he3]) t hq
                rcases hres with hdn | ⟨fid3, hfid3, hlk⟩
                · exact Or.inl hdn
                · refine Or.inr ⟨fid3, ?_, hlk⟩
                  rw [← hfs]
                  exact List.mem_cons_of_mem _ hfid3
        | none =>
          cases hr : Build.findRule s.rules t2 with
          | some rid =>
            rw [needLoop_cons_submit (need1_submit hf hd hb hr)] at h
            cases hlp : needLoop (submitState s t2 rid) ts with
            | mk s3 p =>
              cases p with
              | mk fs3 e3 =>
                rw [hlp] at h
                replace h : (s3, s.nextFid :: fs3, e3) = (s2, fs, none) := h
                rw [Prod.mk.injEq, Prod.mk.injEq] at h
                obtain ⟨hs3, hfs, he3⟩ := h
                rcases List.mem_cons.mp ht with hq | hq
                · right
                  refine ⟨s.nextFid, ?_, ?_⟩
                  · rw [← hfs]
                    exact List.mem_cons_self s.nextFid fs3
                  · have hself : lookupKey t2 (submitState s t2 rid).building =
                        some s.nextFid := by
                      simp only [submitState]
                      exact lookupKey_cons_self
                    have hmono := needLoop_building_mono (t := t2) ts hself
                    rw [hlp] at hmono
                    replace hmono : lookupKey t2 s3.building = some s.nextFid := hmono
                    rw [hs3] at hmono
                    rw [hq]
                    exact hmono
                · have hres := @ih (submitState s t2 rid) fs3 (by rw [hlp, hs3, he3]) t hq
                  rcases hres with hdn | ⟨fid3, hfid3, hlk⟩
                  · exact Or.inl hdn
                  · refine Or.inr ⟨fid3, ?_, hlk⟩
                    rw [← hfs]
                    exact List.mem_cons_of_mem _ hfid3
          | none =>
            rw [needLoop_cons_raised (need1_norule hf hd hb hr)] at h
            rw [Prod.mk.injEq, Prod.mk.injEq] at h
            exact absurd h.2.2 Option.noConfusion


theorem fut_stable_step {s s2 : Build} {l : Label} {fid : Nat} {t : String}
    {rid : Nat} {st : FutStatus} (h : Step s l s2)
    (hm : (fid, Fut.mk t rid st) ∈ s.futs) :
    ∃ st2, (fid, Fut.mk t rid st2) ∈ s2.futs := by
  cases h with
  | raiseFailed hf => exact ⟨st, hm⟩
  | skipDone hf hd => exact ⟨st, hm⟩
  | join hf hd hb => exact ⟨st, hm⟩
  | raiseNoRule hf hd hb hr => exact ⟨st, hm⟩
  | @submit t2 rid2 hf hd hb hr hex =>
    refine ⟨st, ?_⟩
    simp only [submitState, List.mem_cons]
    exact Or.inr hm
  | @finishOk fid2 t2 rid2 hm2 =>
    by_cases hq : fid = fid2
    · refine ⟨resStatus none, ?_⟩
      simp only [finishState, List.mem_map]
      refine ⟨(fid, Fut.mk t rid st), hm, ?_⟩
      rw [updFut]
      rw [if_pos hq]
    · refine ⟨st, ?_⟩
      simp only [finishState, List.mem_map]
      exact ⟨(fid, Fut.mk t rid st), hm, updFut_of_ne hq⟩
  | @finishErr fid2 t2 rid2 e2 hm2 =>
    by_cases hq : fid = fid2
    · refine ⟨resStatus (some e2), ?_⟩
      simp only [finishState, List.mem_map]
      refine ⟨(fid, Fut.mk t rid st), hm, ?_⟩
      rw [updFut]
      rw [if_pos hq]
    · refine ⟨st, ?_⟩
      simp only [finishState, List.mem_map]
      exact ⟨(fid, Fut.mk t rid st), hm, updFut_of_ne hq⟩

theorem fut_stable {s s2 : Build} {ls : List Label} {fid : Nat} {t : String}
    {rid : Nat} {st : FutStatus} (h : Trace s ls s2)
    (hm : (fid, Fut.mk t rid st) ∈ s.futs) :
    ∃ st2, (fid, Fut.mk t rid st2) ∈ s2.futs := by
  induction h generalizing st with
  | refl s => exact ⟨st, hm⟩
  | cons hstep htr ih =>
    obtain ⟨st2, hm2⟩ := fut_stable_step hstep hm
    exact ih hm2

theorem futStatusOf_mem {s : Build} {fid : Nat} {st : FutStatus}
    (h : futStatusOf s fid = some st) :
    ∃ f : Fut, (fid, f) ∈ s.futs ∧ f.status = st := by
  unfold futStatusOf at h
  cases hfl : s.futs.filter (fun f => f.1 == fid) with
  | nil =>
    rw [hfl] at h
    exact absurd h (by simp)
  | cons g rest =>
    rw [hfl] at h
    simp only [List.head?, Option.map_some] at h
    have hg : g ∈ s.futs.filter (fun f => f.1 == fid) := by
      rw [hfl]
      exact List.mem_cons_self g rest
    have hmf := List.mem_filter.mp hg
    have hfid : g.1 = fid := by
      have := hmf.2
      simp only [beq_iff_eq] at this
      exact this
    refine ⟨g.2, ?_, ?_⟩
    · rw [← hfid]
      exact Prod.mk.eta ▸ hmf.1
    · simpa using h

theorem building_resolved_done {s sG : Build} {ls : List Label} {t : String}
    {fid : Nat} (hI : Inv s) (htr : Trace s ls sG)
    (hb : lookupKey t s.building = some fid)
    (hok : futStatusOf sG fid = some FutStatus.resolvedOk) : t ∈ sG.done := by
  obtain ⟨rid, hm⟩ := hI.building_fut (t, fid) (mem_of_lookupKey_eq_some hb)
  obtain ⟨st2, hm2⟩ := fut_stable htr hm
  obtain ⟨g, hg, hgs⟩ := futStatusOf_mem hok
  have hIG : Inv sG := inv_trace htr hI
  have heq : (fid, g) = (fid, Fut.mk t rid st2) :=
    hIG.fut_uniq _ hg _ hm2 rfl
  have hgeq : g = Fut.mk t rid st2 := congrArg Prod.snd heq
  rw [hgeq] at hgs
  simp only at hgs
  rw [hgs] at hm2
  exact hIG.ok_done _ hm2 rfl

theorem inv_needLoop (s : Build) (ts : List String) (hI : Inv s) :
    Inv (needLoop s ts).1 := by
  induction ts generalizing s with
  | nil => exact hI
  | cons t ts ih =>
    cases hf : lookupKey t s.failed with
    | some e =>
      rw [needLoop_cons_raised (need1_failed hf)]
      exact hI
    | none =>
      by_cases hd : t ∈ s.done
      · rw [needLoop_cons_skip (need1_done hf hd)]
        exact ih s hI
      · cases hb : lookupKey t s.building with
        | some fid =>
          rw [needLoop_cons_join (need1_building hf hd hb)]
          exact ih s hI
        | none =>
          cases hr : Build.findRule s.rules t with
          | some rid =>
            rw [needLoop_cons_submit (need1_submit hf hd hb hr)]
            exact ih (submitState s t rid) (inv_submitState hI hf hd hb)
          | none =>
            rw [needLoop_cons_raised (need1_norule hf hd hb hr)]
            exact hI

theorem firstErr_some_split {r : Nat → Option Err} {gs : List Nat} {e : Err}
    (h : firstErr r gs = some e) :
    ∃ g1 g2 fid, gs = g1 ++ fid :: g2 ∧ r fid = some e ∧
      ∀ g ∈ g1, r g = none := by
  induction gs with
  | nil => exact absurd h (by simp [firstErr])
  | cons g gs ih =>
    rw [firstErr] at h
    cases hg : r g with
    | some e2 =>
      rw [hg] at h
      rw [Option.some.injEq] at h
      refine ⟨[], gs, g, by simp, ?_, by simp⟩
      rw [hg, h]
    | none =>
      rw [hg] at h
      obtain ⟨g1, g2, fid, hsp, hre, hall⟩ := ih h
      refine ⟨g :: g1, g2, fid, by rw [hsp, List.cons_append], hre, ?_⟩
      intro g3 hg3
      rcases List.mem_cons.mp hg3 with hq | hq
      · rw [hq]
        exact hg
      · exact hall g3 hq

theorem firstErr_none_all {r : Nat → Option Err} {gs : List Nat}
    (h : firstErr r gs = none) : ∀ g ∈ gs, r g = none := by
  induction gs with
  | nil =>
    intro g hg
    exact absurd hg (List.not_mem_nil g)
  | cons g gs ih =>
    rw [firstErr] at h
    cases hg : r g with
    | some e2 =>
      rw [hg] at h
      exact absurd h (by simp)
    | none =>
      rw [hg] at h
      intro g3 hg3
      rcases List.mem_cons.mp hg3 with hq | hq
      · rw [hq]
        exact hg
      · exact ih h g3 hq

theorem needLoop_append_failed {t : String} {e : Err} (post : List String)
    (pre : List String) (s : Build)
    (hf : lookupKey t s.failed = some e)
    (hok : (needLoop s pre).2.2 = none) :
    needLoop s (pre ++ t :: post) =
      ((needLoop s pre).1, (needLoop s pre).2.1, some e) := by
  induction pre generalizing s with
  | nil =>
    rw [List.nil_append, needLoop_cons_raised (need1_failed hf)]
    rfl
  | cons t2 pre ih =>
    cases hf2 : lookupKey t2 s.failed with
    | some e2 =>
      rw [needLoop_cons_raised (need1_failed hf2)] at hok
      exact absurd hok (by simp)
    | none =>
      by_cases hd : t2 ∈ s.done
      · rw [needLoop_cons_skip (need1_done hf2 hd)] at hok
        rw [List.cons_append, needLoop_cons_skip (need1_done hf2 hd),
          needLoop_cons_skip (need1_done hf2 hd), ih s hf hok]
      · cases hb : lookupKey t2 s.building with
        | some fid =>
          rw [needLoop_cons_join (need1_building hf2 hd hb)] at hok
          replace hok : (needLoop s pre).2.2 = none := hok
          rw [List.cons_append, needLoop_cons_join (need1_building hf2 hd hb),
            needLoop_cons_join (need1_building hf2 hd hb), ih s hf hok]
        | none =>
          cases hr : Build.findRule s.rules t2 with
          | some rid =>
            rw [needLoop_cons_submit (need1_submit hf2 hd hb hr)] at hok
            replace hok : (needLoop (submitState s t2 rid) pre).2.2 = none := hok
            have hf3 : lookupKey t (submitState s t2 rid).failed = some e := hf
            rw [List.cons_append, needLoop_cons_submit (need1_submit hf2 hd hb hr),
              needLoop_cons_submit (need1_submit hf2 hd hb hr),
              ih (submitState s t2 rid) hf3 hok]
          | none =>
            rw [needLoop_cons_raised (need1_norule hf2 hd hb hr)] at hok
            exact absurd hok (by simp)

theorem needLoop_append_raised {e2 : Err} (rest : List String)
    (pre : List String) (s : Build)
    (he : (needLoop s pre).2.2 = some e2) :
    needLoop s (pre ++ rest) = needLoop s pre := by
  induction pre generalizing s with
  | nil => exact absurd he (by simp [needLoop])
  | cons t2 pre ih =>
    cases hf2 : lookupKey t2 s.failed with
    | some e3 =>
      rw [List.cons_append, needLoop_cons_raised (need1_failed hf2),
        needLoop_cons_raised (need1_failed hf2)]
    | none =>
      by_cases hd : t2 ∈ s.done
      · rw [needLoop_cons_skip (need1_done hf2 hd)] at he
        rw [List.cons_append, needLoop_cons_skip (need1_done hf2 hd),
          needLoop_cons_skip (need1_done hf2 hd), ih s he]
      · cases hb : lookupKey t2 s.building with
        | some fid =>
          rw [needLoop_cons_join (need1_building hf2 hd hb)] at he
          replace he : (needLoop s pre).2.2 = some e2 := he
          rw [List.cons_append, needLoop_cons_join (need1_building hf2 hd hb),
            needLoop_cons_join (need1_building hf2 hd hb), ih s he]
        | none =>
          cases hr : Build.findRule s.rules t2 with
          | some rid =>
            rw [needLoop_cons_submit (need1_submit hf2 hd hb hr)] at he
            replace he : (needLoop (submitState s t2 rid) pre).2.2 = some e2 := he
            rw [List.cons_append, needLoop_cons_submit (need1_submit hf2 hd hb hr),
              needLoop_cons_submit (need1_submit hf2 hd hb hr),
              ih (submitState s t2 rid) he]
          | none =>
            rw [List.cons_append, needLoop_cons_raised (need1_norule hf2 hd hb hr),
              needLoop_cons_raised (need1_norule hf2 hd hb hr)]

theorem traceW : Trace sW0 [Label.submit "t" 0, Label.finish "t" 0 none] sW2 :=
  Trace.cons
    (@Step.submit sW0 "t" 1 (by decide) (by decide) (by decide) (by decide)
      (by decide))
    (Trace.cons (@Step.finishOk sW1 0 "t" 1 (by decide)) (Trace.refl sW2))

/-- Claim C5: rule lookup scans the rule table in registration order and
returns the handler of the first registered pattern that glob-matches the
target; in particular, for rules registered in order build:* (handler 1) then
build:special (handler 2), looking up build:special selects handler 1,
independent of how specific the patterns look. -/
theorem c5_first_match_wins (rules : List (String × Nat)) (t : String) :
    Build.findRule rules t =
      (rules.find? (fun pr => fnmatch pr.1 t)).map (fun pr => pr.2)
    ∧ Build.findRule
        (((Build.init.rule "build:*" 1).rule "build:special" 2).rules)
        "build:special" = some 1 := by
  constructor
  · induction rules with
    | nil => rfl
    | cons p rest ih =>
      cases p with
      | mk pat fn =>
        rw [Build.findRule]
        by_cases hm : fnmatch pat t = true
        · rw [if_pos hm, List.find?_cons_of_pos _ (by simpa using hm)]
          rfl
        · rw [if_neg hm, List.find?_cons_of_neg _ (by simpa using hm), ih]
  · decide

/-- Claim C6: demanding a target matched by no registered pattern raises the
no-matching-rule error carrying that exact target name, directly to the
demanding caller, and records no state for the target: the loop stops with
the scheduler state unchanged, so the target stays unknown (in none of the
building, done, failed tables), and the only dispatch step the machine allows
for such a target is the raise, which leaves the state untouched. -/
theorem c6_no_matching_rule (s : Build) (t : String) (ts : List String)
    (w : Nat) (r : Nat → Option Err)
    (hex : s.executor = some w)
    (hf : lookupKey t s.failed = none) (hd : t ∉ s.done)
    (hb : lookupKey t s.building = none)
    (hr : Build.findRule s.rules t = none) :
    Build.need s (t :: ts) r = NeedResult.raised (Err.noMatchingRule t)
    ∧ needLoop s (t :: ts) = (s, [], some (Err.noMatchingRule t))
    ∧ (∀ l s2, Step s l s2 → dispatchTarget l = some t →
        l = Label.raiseNoRule t ∧ s2 = s) := by
  have hloop := @needLoop_cons_raised s t ts (Err.noMatchingRule t) (need1_norule hf hd hb hr)
  refine ⟨?_, hloop, ?_⟩
  · simp only [Build.need, hex, hloop]
  · intro l s2 hstep hdt
    cases hstep with
    | @raiseFailed t2 e hf2 =>
      rw [dispatchTarget, Option.some.injEq] at hdt
      rw [hdt] at hf2
      rw [hf] at hf2
      exact Option.noConfusion hf2
    | @skipDone t2 hf2 hd2 =>
      rw [dispatchTarget, Option.some.injEq] at hdt
      rw [hdt] at hd2
      exact absurd hd2 hd
    | @join t2 fid hf2 hd2 hb2 =>
      rw [dispatchTarget, Option.some.injEq] at hdt
      rw [hdt] at hb2
      rw [hb] at hb2
      exact Option.noConfusion hb2
    | @submit t2 rid hf2 hd2 hb2 hr2 hex2 =>
      rw [dispatchTarget, Option.some.injEq] at hdt
      rw [hdt] at hr2
      rw [hr] at hr2
      exact Option.noConfusion hr2
    | @raiseNoRule t2 hf2 hd2 hb2 hr2 =>
      rw [dispatchTarget, Option.some.injEq] at hdt
      rw [hdt]
      exact ⟨rfl, rfl⟩
    | finishOk hm =>
      exact Option.noConfusion hdt
    | finishErr hm =>
      exact Option.noConfusion hdt

theorem c6_witness :
    Build.need sW0 ["x", "t"] (fun _ => none) =
      NeedResult.raised (Err.noMatchingRule "x")
    ∧ needLoop sW0 ["x", "t"] = (sW0, [], some (Err.noMatchingRule "x")) :=
  ⟨(c6_no_matching_rule sW0 "x" ["t"] 8 (fun _ => none) (by decide) (by decide)
      (by decide) (by decide) (by decide)).1,
    (c6_no_matching_rule sW0 "x" ["t"] 8 (fun _ => none) (by decide) (by decide)
      (by decide) (by decide) (by decide)).2.1⟩

/-- Claim C3: the per-target dispatch of need, in list order.  An already
failed head target raises its stored exception immediately, short-circuiting
the whole call (the result does not depend on the remaining targets and no
state is mutated); a done head target is skipped; a building head target
joins the existing future, which is recorded (in order) to be waited on; an
unknown head target has its rule looked up, is submitted, and is recorded as
building with the fresh future; an unknown target with no rule raises. -/
theorem c3_dispatch_order (s : Build) (t : String) (ts : List String) :
    (∀ e, lookupKey t s.failed = some e →
      needLoop s (t :: ts) = (s, [], some e))
    ∧ (lookupKey t s.failed = none → t ∈ s.done →
      needLoop s (t :: ts) = needLoop s ts)
    ∧ (∀ fid, lookupKey t s.failed = none → t ∉ s.done →
      lookupKey t s.building = some fid →
      needLoop s (t :: ts) =
        ((needLoop s ts).1, fid :: (needLoop s ts).2.1, (needLoop s ts).2.2))
    ∧ (∀ rid, lookupKey t s.failed = none → t ∉ s.done →
      lookupKey t s.building = none → Build.findRule s.rules t = some rid →
      needLoop s (t :: ts) =
        ((needLoop (submitState s t rid) ts).1,
          s.nextFid :: (needLoop (submitState s t rid) ts).2.1,
          (needLoop (submitState s t rid) ts).2.2)
      ∧ lookupKey t (submitState s t rid).building = some s.nextFid
      ∧ (s.nextFid, Fut.mk t rid FutStatus.running) ∈ (submitState s t rid).futs)
    ∧ (lookupKey t s.failed = none → t ∉ s.done →
      lookupKey t s.building = none → Build.findRule s.rules t = none →
      needLoop s (t :: ts) = (s, [], some (Err.noMatchingRule t))) := by
  refine ⟨?_, ?_, ?_, ?_, ?_⟩
  · intro e hf
    exact needLoop_cons_raised (need1_failed hf)
  · intro hf hd
    exact needLoop_cons_skip (need1_done hf hd)
  · intro fid hf hd hb
    exact needLoop_cons_join (need1_building hf hd hb)
  · intro rid hf hd hb hr
    refine ⟨needLoop_cons_submit (need1_submit hf hd hb hr), ?_, ?_⟩
    · simp only [submitState]
      exact lookupKey_cons_self
    · simp only [submitState]
      exact List.mem_cons_self _ _
  · intro hf hd hb hr
    exact needLoop_cons_raised (need1_norule hf hd hb hr)

theorem c3_witness :
    needLoop sF4 ["u", "t"] = (sF4, [], some (Err.handlerFailure 7))
    ∧ (needLoop sW0 ["t"] =
        ((needLoop sW1 []).1, 0 :: (needLoop sW1 []).2.1, (needLoop sW1 []).2.2)
      ∧ lookupKey "t" sW1.building = some 0
      ∧ (0, Fut.mk "t" 1 FutStatus.running) ∈ sW1.futs) :=
  ⟨(c3_dispatch_order sF4 "u" ["t"]).1 (Err.handlerFailure 7) (by decide),
    (c3_dispatch_order sW0 "t" []).2.2.2.1 1 (by decide) (by decide) (by decide)
      (by decide)⟩

/-- Claim C9: a target occurring twice in one need call, previously unknown:
the first occurrence submits the build, and the second occurrence (and the
rest of the call) proceeds from the submitted state, joining the very same
fresh future, which is therefore waited on twice; exactly one future is
created for the target. -/
theorem c9_duplicate_join (s : Build) (t : String) (ts : List String)
    (rid : Nat)
    (hf : lookupKey t s.failed = none) (hd : t ∉ s.done)
    (hb : lookupKey t s.building = none)
    (hr : Build.findRule s.rules t = some rid) :
    needLoop s (t :: t :: ts) =
      ((needLoop (submitState s t rid) ts).1,
        s.nextFid :: s.nextFid :: (needLoop (submitState s t rid) ts).2.1,
        (needLoop (submitState s t rid) ts).2.2)
    ∧ (submitState s t rid).futs =
        (s.nextFid, Fut.mk t rid FutStatus.running) :: s.futs := by
  constructor
  · have hf2 : lookupKey t (submitState s t rid).failed = none := hf
    have hd2 : t ∉ (submitState s t rid).done := hd
    have hb2 : lookupKey t (submitState s t rid).building = some s.nextFid := by
      simp only [submitState]
      exact lookupKey_cons_self
    rw [needLoop_cons_submit (need1_submit hf hd hb hr),
      needLoop_cons_join (need1_building hf2 hd2 hb2)]
  · rfl

theorem c9_witness :
    needLoop sW0 ["t", "t"] = (sW1, [0, 0], none)
    ∧ sW1.futs = (0, Fut.mk "t" 1 FutStatus.running) :: sW0.futs :=
  c9_duplicate_join sW0 "t" [] 1 (by decide) (by decide) (by decide) (by decide)

/-- Claim C10: calling need with no executor installed fails the entry
assertion (assert self executor is not None); with an executor installed the
assertion never fails; and within run, which installs the pool before its
need call, the assertion-failure branch is unreachable. -/
theorem c10_executor_assert (s : Build) (ts : List String)
    (r : Nat → Option Err) (cpus : Nat) (t : String) :
    (s.executor = none → Build.need s ts r = NeedResult.assertFailed)
    ∧ (∀ w, s.executor = some w → Build.need s ts r ≠ NeedResult.assertFailed)
    ∧ (Build.run s cpus r t).needResult ≠ NeedResult.assertFailed := by
  have key : ∀ (s2 : Build) (ts2 : List String) (w : Nat),
      s2.executor = some w → Build.need s2 ts2 r ≠ NeedResult.assertFailed := by
    intro s2 ts2 w h
    simp only [Build.need, h]
    cases hlp : needLoop s2 ts2 with
    | mk s3 p =>
      cases p with
      | mk fs e? =>
        cases e? with
        | some e =>
          simp
        | none =>
          cases hfe : firstErr r fs with
          | some e => simp [hfe]
          | none => simp [hfe]
  refine ⟨?_, fun w h => key s ts w h, ?_⟩
  · intro h
    simp [Build.need, h]
  · exact key (installExec s cpus) [t] (defaultMaxWorkers cpus) rfl

theorem c10_witness :
    Build.need Build.init ["t"] (fun _ => none) = NeedResult.assertFailed
    ∧ Build.need sW0 ["t"] (fun _ => none) ≠ NeedResult.assertFailed :=
  ⟨(c10_executor_assert Build.init ["t"] (fun _ => none) 4 "t").1 rfl,
    (c10_executor_assert sW0 ["t"] (fun _ => none) 4 "t").2.1 8 (by decide)⟩

/-- Claim C8: run enters a worker pool context whose default size is
min 32 (cpus + 4) for a host with cpus CPUs, installs it as the executor,
synchronously calls need on the root target, propagates any error that need
raises, and on both the success and the exception path the with-block tears
the pool down, waiting for still-running submitted handlers. -/
theorem c8_run_lifecycle (s : Build) (cpus : Nat) (r : Nat → Option Err)
    (t : String) :
    (installExec s cpus).executor = some (min 32 (cpus + 4))
    ∧ (Build.run s cpus r t).needResult = Build.need (installExec s cpus) [t] r
    ∧ (∀ e, Build.need (installExec s cpus) [t] r = NeedResult.raised e →
        (Build.run s cpus r t).needResult = NeedResult.raised e)
    ∧ (Build.run s cpus r t).shutdownCalled = true
    ∧ (Build.run s cpus r t).shutdownWaited = true :=
  ⟨rfl, rfl, fun _ h => h, rfl, rfl⟩

theorem c8_witness :
    (installExec Build.init 4).executor = some (min 32 (4 + 4))
    ∧ (Build.run Build.init 4 (fun _ => none) "t").needResult =
        NeedResult.raised (Err.noMatchingRule "t")
    ∧ (Build.run Build.init 4 (fun _ => none) "t").shutdownCalled = true
    ∧ (Build.run Build.init 4 (fun _ => none) "t").shutdownWaited = true :=
  ⟨(c8_run_lifecycle Build.init 4 (fun _ => none) "t").1,
    (c8_run_lifecycle Build.init 4 (fun _ => none) "t").2.2.1
      (Err.noMatchingRule "t") (by decide),
    (c8_run_lifecycle Build.init 4 (fun _ => none) "t").2.2.2.1,
    (c8_run_lifecycle Build.init 4 (fun _ => none) "t").2.2.2.2⟩

/-- Claim C4, amended.  Once target t has failed with stored exception e:
a need call demanding t first raises exactly the stored e (the identical
value, not a wrapped one); a call mentioning t anywhere raises exactly e
provided no earlier target of the same call raises first, stopping at t; any
call mentioning t raises some error (it never succeeds); and no machine step
can ever submit the handler of t again. -/
theorem c4_failure_replay (s : Build) (t : String) (e : Err)
    (pre post : List String) (w : Nat) (r : Nat → Option Err)
    (hex : s.executor = some w)
    (hf : lookupKey t s.failed = some e) :
    Build.need s (t :: post) r = NeedResult.raised e
    ∧ ((needLoop s pre).2.2 = none →
        needLoop s (pre ++ t :: post) =
          ((needLoop s pre).1, (needLoop s pre).2.1, some e))
    ∧ (needLoop s (pre ++ t :: post)).2.2 ≠ none
    ∧ (∀ ls sG l s3 fid, Inv s → Trace s ls sG → Step sG l s3 →
        l ≠ Label.submit t fid) := by
  refine ⟨?_, needLoop_append_failed post pre s hf, ?_, ?_⟩
  · have hloop := @needLoop_cons_raised s t post e (need1_failed hf)
    simp only [Build.need, hex, hloop]
  · cases hpre : (needLoop s pre).2.2 with
    | some e2 =>
      rw [needLoop_append_raised (t :: post) pre s hpre, hpre]
      simp
    | none =>
      rw [needLoop_append_failed post pre s hf hpre]
      simp
  · intro ls sG l s3 fid hI htr hstep heq
    rw [heq] at hstep
    have hfG := failed_mono htr hI hf
    cases hstep with
    | submit hf2 hd2 hb2 hr2 hex2 =>
      rw [hfG] at hf2
      exact Option.noConfusion hf2

theorem c4_witness :
    Build.need sF4 ["t"] (fun _ => none) =
      NeedResult.raised (Err.handlerFailure 3)
    ∧ (needLoop sF4 (["u"] ++ "t" :: [])).2.2 ≠ none :=
  ⟨(c4_failure_replay sF4 "t" (Err.handlerFailure 3) ["u"] [] 8 (fun _ => none)
      (by decide) (by decide)).1,
    (c4_failure_replay sF4 "t" (Err.handlerFailure 3) ["u"] [] 8 (fun _ => none)
      (by decide) (by decide)).2.2.1⟩

/-- Claim C4, counterexample to the claim as stated.  In the concrete run
reaching sF4, the handler of target t raised the exception with code 3 once
(the last finish step of the trace), and that exception is stored for t; yet
the subsequent call need(u, t) — a need call mentioning t — raises the
exception with code 7 (the one stored for u, which short-circuits first),
which is not the stored exception of t. -/
theorem c4_counterexample :
    Trace sW0
      [Label.submit "u" 0, Label.finish "u" 0 (some (Err.handlerFailure 7)),
        Label.submit "t" 1, Label.finish "t" 1 (some (Err.handlerFailure 3))]
      sF4
    ∧ lookupKey "t" sF4.failed = some (Err.handlerFailure 3)
    ∧ Build.need sF4 ["u", "t"] (fun _ => none) =
        NeedResult.raised (Err.handlerFailure 7)
    ∧ Err.handlerFailure 7 ≠ Err.handlerFailure 3 := by
  refine ⟨?_, by decide, by decide, by decide⟩
  exact Trace.cons
    (@Step.submit sW0 "u" 0 (by decide) (by decide) (by decide) (by decide)
      (by decide))
    (Trace.cons (@Step.finishErr sF1 0 "u" 0 (Err.handlerFailure 7) (by decide))
      (Trace.cons
        (@Step.submit sF2 "t" 1 (by decide) (by decide) (by decide) (by decide)
          (by decide))
        (Trace.cons
          (@Step.finishErr sF3 1 "t" 1 (Err.handlerFailure 3) (by decide))
          (Trace.refl sF4))))

/-- Claim C1: exactly-once execution.  Over any execution of the scheduler
from an invariant state, a build of a given target is submitted at most once
and finishes at most once; the submitting step records the target as
building, mapped to the fresh future; and while a target is building, the
only dispatch step the machine allows for it is joining the recorded
future — never a second submission. -/
theorem c1_exactly_once (s sG : Build) (ls : List Label) (t : String)
    (hI : Inv s) (h : Trace s ls sG) :
    countSubmit t ls ≤ 1
    ∧ countFinish t ls ≤ 1
    ∧ (∀ s1 s2 fid, Step s1 (Label.submit t fid) s2 →
        lookupKey t s2.building = some fid ∧ fid = s1.nextFid)
    ∧ (∀ s1 s2 l fid, Inv s1 → Step s1 l s2 →
        lookupKey t s1.building = some fid →
        dispatchTarget l = some t → l = Label.join t fid) := by
  refine ⟨countSubmit_le_one h, countFinish_le_one h hI, ?_, ?_⟩
  · intro s1 s2 fid hstep
    cases hstep with
    | submit hf hd hb hr hex =>
      constructor
      · simp only [submitState]
        exact lookupKey_cons_self
      · rfl
  · intro s1 s2 l fid hI hstep hb hdt
    cases hstep with
    | @raiseFailed t2 e hf2 =>
      rw [dispatchTarget, Option.some.injEq] at hdt
      rw [hdt] at hf2
      rw [building_not_failed hI hb] at hf2
      exact Option.noConfusion hf2
    | @skipDone t2 hf2 hd2 =>
      rw [dispatchTarget, Option.some.injEq] at hdt
      rw [hdt] at hd2
      exact absurd hd2 (building_not_done hI hb)
    | @join t2 fid2 hf2 hd2 hb2 =>
      rw [dispatchTarget, Option.some.injEq] at hdt
      rw [hdt] at hb2 ⊢
      rw [hb] at hb2
      rw [Option.some.injEq] at hb2
      rw [hb2]
    | @submit t2 rid hf2 hd2 hb2 hr2 hex2 =>
      rw [dispatchTarget, Option.some.injEq] at hdt
      rw [hdt] at hb2
      rw [hb] at hb2
      exact Option.noConfusion hb2
    | @raiseNoRule t2 hf2 hd2 hb2 hr2 =>
      rw [dispatchTarget, Option.some.injEq] at hdt
      rw [hdt] at hb2
      rw [hb] at hb2
      exact Option.noConfusion hb2
    | finishOk hm => exact Option.noConfusion hdt
    | finishErr hm => exact Option.noConfusion hdt

theorem c1_witness :
    countSubmit "t" [Label.submit "t" 0, Label.finish "t" 0 none] ≤ 1
    ∧ lookupKey "t" sW1.building = some 0 :=
  ⟨(c1_exactly_once sW0 sW2 [Label.submit "t" 0, Label.finish "t" 0 none] "t"
      (inv_empty rfl rfl rfl rfl) traceW).1,
    ((c1_exactly_once sW0 sW2 [Label.submit "t" 0, Label.finish "t" 0 none] "t"
      (inv_empty rfl rfl rfl rfl) traceW).2.2.1 sW0 sW1 0
      (@Step.submit sW0 "t" 1 (by decide) (by decide) (by decide) (by decide)
        (by decide))).1⟩

/-- Claim C2: single-path lifecycle.  From any invariant-satisfying state:
a done target stays done forever and is never in the failed or building
tables; a failed target keeps its stored exception forever and is never done
or building; a build of a target is submitted at most once and finished at
most once along any execution; and any single step that moves a target into
a terminal table leaves it out of the building table in that same atomic
step, so no intermediate state exposes a target as both building and
terminal. -/
theorem c2_state_lifecycle (s sG : Build) (ls : List Label) (t : String)
    (e : Err) (hI : Inv s) (h : Trace s ls sG) :
    (t ∈ s.done → t ∈ sG.done ∧ lookupKey t sG.failed = none ∧
      lookupKey t sG.building = none)
    ∧ (lookupKey t s.failed = some e → lookupKey t sG.failed = some e ∧
      t ∉ sG.done ∧ lookupKey t sG.building = none)
    ∧ countSubmit t ls ≤ 1
    ∧ countFinish t ls ≤ 1
    ∧ (∀ s1 l s2, Inv s1 → Step s1 l s2 →
        ((t ∉ s1.done ∧ t ∈ s2.done) ∨
          (lookupKey t s1.failed = none ∧
            (lookupKey t s2.failed).isSome = true)) →
        lookupKey t s2.building = none) := by
  have hIG : Inv sG := inv_trace h hI
  refine ⟨?_, ?_, countSubmit_le_one h, countFinish_le_one h hI, ?_⟩
  · intro hd
    have hdG := done_mono h hd
    exact ⟨hdG, done_not_failed hIG hdG, done_not_building hIG hdG⟩
  · intro he
    have heG := failed_mono h hI he
    exact ⟨heG, failed_not_done hIG heG, failed_not_building hIG heG⟩
  · intro s1 l s2 hI1 hstep hch
    cases hstep with
    | raiseFailed hf2 =>
      rcases hch with ⟨hnd, hd⟩ | ⟨hn, hs⟩
      · exact absurd hd hnd
      · rw [hn] at hs
        exact Bool.noConfusion hs
    | skipDone hf2 hd2 =>
      rcases hch with ⟨hnd, hd⟩ | ⟨hn, hs⟩
      · exact absurd hd hnd
      · rw [hn] at hs
        exact Bool.noConfusion hs
    | join hf2 hd2 hb2 =>
      rcases hch with ⟨hnd, hd⟩ | ⟨hn, hs⟩
      · exact absurd hd hnd
      · rw [hn] at hs
        exact Bool.noConfusion hs
    | raiseNoRule hf2 hd2 hb2 hr2 =>
      rcases hch with ⟨hnd, hd⟩ | ⟨hn, hs⟩
      · exact absurd hd hnd
      · rw [hn] at hs
        exact Bool.noConfusion hs
    | @submit t2 rid hf2 hd2 hb2 hr2 hex2 =>
      rcases hch with ⟨hnd, hd⟩ | ⟨hn, hs⟩
      · exact absurd hd hnd
      · replace hs : (lookupKey t s1.failed).isSome = true := hs
        rw [hn] at hs
        exact Bool.noConfusion hs
    | @finishOk fid t2 rid hm =>
      by_cases hq : t2 = t
      · simp only [finishState]
        rw [← hq]
        exact lookupKey_removeKey_self
      · exfalso
        rcases hch with ⟨hnd, hd⟩ | ⟨hn, hs⟩
        · replace hd : t ∈ t2 :: s1.done := hd
          rcases List.mem_cons.mp hd with hq2 | hq2
          · exact hq hq2.symm
          · exact hnd hq2
        · replace hs : (lookupKey t s1.failed).isSome = true := hs
          rw [hn] at hs
          exact Bool.noConfusion hs
    | @finishErr fid t2 rid e2 hm =>
      by_cases hq : t2 = t
      · simp only [finishState]
        rw [← hq]
        exact lookupKey_removeKey_self
      · exfalso
        rcases hch with ⟨hnd, hd⟩ | ⟨hn, hs⟩
        · exact hnd hd
        · replace hs : (lookupKey t ((t2, e2) :: s1.failed)).isSome = true := hs
          rw [lookupKey_cons_ne hq, hn] at hs
          exact Bool.noConfusion hs

theorem c2_witness :
    "t" ∈ sW2.done ∧ lookupKey "t" sW2.failed = none ∧
      lookupKey "t" sW2.building = none :=
  (c2_state_lifecycle sW2 sW2 [] "t" (Err.handlerFailure 0)
    (inv_trace traceW (inv_empty rfl rfl rfl rfl)) (Trace.refl sW2)).1
    (by decide)

/-- Claim C7: the wait phase of need blocks on every collected future in the
order collected, and the first future whose wait raises propagates exactly
that error; when the loop completed without raising and every collected
future later resolves successfully, every requested target is in the done
table of that later state — so a dependency demanded from within a handler is
fully completed before the need call that demanded it returns. -/
theorem c7_need_blocks (s sG : Build) (ls : List Label) (ts : List String)
    (s2 : Build) (fs : List Nat)
    (hI : Inv s) (hloop : needLoop s ts = (s2, fs, none))
    (htr : Trace s2 ls sG)
    (hok : ∀ fid ∈ fs, futStatusOf sG fid = some FutStatus.resolvedOk) :
    (∀ t ∈ ts, t ∈ sG.done)
    ∧ (∀ (r : Nat → Option Err) (gs : List Nat) (e : Err),
        firstErr r gs = some e →
        ∃ g1 g2 fid, gs = g1 ++ fid :: g2 ∧ r fid = some e ∧
          ∀ g ∈ g1, r g = none)
    ∧ (∀ (r : Nat → Option Err) (gs : List Nat),
        firstErr r gs = none → ∀ g ∈ gs, r g = none) := by
  have hI2 : Inv s2 := by
    have hIl := inv_needLoop s ts hI
    rw [hloop] at hIl
    exact hIl
  refine ⟨?_, fun r gs e hsp => firstErr_some_split hsp,
    fun r gs hno => firstErr_none_all hno⟩
  intro t ht
  rcases needLoop_targets hloop t ht with hdn | ⟨fid, hfid, hlk⟩
  · exact done_mono htr hdn
  · exact building_resolved_done hI2 htr hlk (hok fid hfid)

theorem c7_witness :
    "t" ∈ sW2.done
    ∧ (∀ g ∈ ([0] : List Nat), (fun _ => (none : Option Err)) g = none) :=
  ⟨(c7_need_blocks sW0 sW2 [Label.finish "t" 0 none] ["t"] sW1 [0]
      (inv_empty rfl rfl rfl rfl) (by decide)
      (Trace.cons (@Step.finishOk sW1 0 "t" 1 (by decide)) (Trace.refl sW2))
      (by decide)).1 "t" (by decide),
    (c7_need_blocks sW0 sW2 [Label.finish "t" 0 none] ["t"] sW1 [0]
      (inv_empty rfl rfl rfl rfl) (by decide)
      (Trace.cons (@Step.finishOk sW1 0 "t" 1 (by decide)) (Trace.refl sW2))
      (by decide)).2.2 (fun _ => none) [0] rfl⟩

end BuildSpec
